import Mathlib

/-!
Verification of the S3-FIFO cache (src/storage/cache/s3fifo.rs).

The Rust cache is shallowly embedded: the `hashbrown::HashMap` entry table
becomes an association list of `(key, value, freq)` triples, the two
`HeapRb` ring buffers become capacity-bounded lists (head of the list is
the head of the ring), and the `IndexSet` ghost queue becomes an
insertion-ordered duplicate-free list.  The `AtomicU8` frequency counter
becomes a `Nat` together with an explicit wrap-around decrement
(`fetch_sub(1)` on a `u8`).  Calls to `Option::unwrap` on a missing entry
are modelled by the `Res.panicked` outcome; the unbounded recursion of
`insert_m`/`evict_m` is modelled with explicit fuel, and `Res.fuelOut`
marks fuel exhaustion (proved unreachable from reachable states).
-/

set_option maxHeartbeats 1600000

namespace S3F

/-- Outcome of an operation on the embedded cache: a normal result, a Rust
panic (an `unwrap` of `None`), or exhaustion of the modelling fuel. -/
inductive Res (α : Type) where
  | ok : α → Res α
  | panicked : Res α
  | fuelOut : Res α
deriving DecidableEq

variable {K V : Type} [DecidableEq K]

/-- `HashMap::get`: first (and, on key-unique lists, only) binding of `k`. -/
def lookupE : List (K × V × Nat) → K → Option (V × Nat)
  | [], _ => none
  | p :: l, k => if p.1 = k then some p.2 else lookupE l k

/-- `HashMap::contains_key`. -/
def containsE (l : List (K × V × Nat)) (k : K) : Bool :=
  (lookupE l k).isSome

/-- `HashMap::remove`: drop every binding of `k` (maps are key-unique). -/
def eraseE : List (K × V × Nat) → K → List (K × V × Nat)
  | [], _ => []
  | p :: l, k => if p.1 = k then eraseE l k else p :: eraseE l k

/-- `entry.freq.store(f)`: overwrite the frequency of the binding of `k`. -/
def setFreq : List (K × V × Nat) → K → Nat → List (K × V × Nat)
  | [], _, _ => []
  | p :: l, k, f => if p.1 = k then (p.1, p.2.1, f) :: setFreq l k f
                    else p :: setFreq l k f

/-- `HashMap::insert` of a fresh entry `Entry::new(k, v)` (freq 0). -/
def insertE (l : List (K × V × Nat)) (k : K) (v : V) : List (K × V × Nat) :=
  eraseE l k ++ [(k, v, 0)]

/-- The keys of the entry table. -/
def keysOf (l : List (K × V × Nat)) : List K := l.map Prod.fst

/-- The frequency recorded for `k` (0 when `k` is absent). -/
def freqOf (l : List (K × V × Nat)) (k : K) : Nat :=
  match lookupE l k with
  | none => 0
  | some p => p.2

/-- `AtomicU8::fetch_sub(1)`: wrapping decrement of a `u8`. -/
def decFreq (f : Nat) : Nat := (f + 255) % 256

/-- `ringbuf::HeapRb::push_overwrite`: append at the tail; if the ring was
full before the push, pop and return the head first.  (With capacity 0 the
inner `push` fails and is ignored, leaving the ring empty.) -/
def push_overwrite (cap : Nat) (q : List K) (k : K) : List K × Option K :=
  if q.length < cap then (q ++ [k], none)
  else match q with
    | [] => ([], none)
    | v :: rest => (rest ++ [k], some v)

/-- `GhostQueue::push`: when full, `IndexSet::pop` removes the
most-recently inserted element; `IndexSet::insert` is a no-op on a
present key. -/
def ghost_push (cap : Nat) (g : List K) (k : K) : List K :=
  let g1 := if g.length = cap then g.dropLast else g
  if k ∈ g1 then g1 else g1 ++ [k]

/-- The cache state: `Cache<K, V>` from the source. -/
structure Cache (K V : Type) where
  smallCap : Nat
  mainCap : Nat
  ghostCap : Nat
  small : List K
  main : List K
  ghost : List K
  entries : List (K × V × Nat)
deriving DecidableEq

/-- `Cache::new` for a capacity on which the `usize` subtraction
`max_cache_size - max_small_size` does not underflow (true for every
capacity ≥ 1). -/
def mkCache (K V : Type) (c : Nat) : Cache K V :=
  let s := max (c / 10) 1
  let m := max (c - s) 1
  { smallCap := s, mainCap := m, ghostCap := m,
    small := [], main := [], ghost := [], entries := [] }

/-- `Cache::new`.  When `max (c / 10) 1 > c` the subtraction
`c - max_small_size` underflows: a panic in debug builds, and in release
builds the wrapped value `usize::MAX` makes the ring-buffer allocation
abort.  Either way no cache is produced, modelled by `none`. -/
def Cache.new (K V : Type) (c : Nat) : Option (Cache K V) :=
  if max (c / 10) 1 ≤ c then some (mkCache K V c) else none

/-- `MAX_FREQUENCY_LIMIT`. -/
def maxFreqLimit : Nat := 3

/-- `Cache::get`: on a hit, load the frequency and store `freq + 1` when
it is below `MAX_FREQUENCY_LIMIT`, then return (a clone of) the value. -/
def Cache.get (s : Cache K V) (key : K) : Option V × Cache K V :=
  match lookupE s.entries key with
  | none => (none, s)
  | some pv =>
    (some pv.1,
     if pv.2 < maxFreqLimit then
       { s with entries := setFreq s.entries key (pv.2 + 1) }
     else s)

/-- The sum of the frequencies of the keys currently in the main queue. -/
def phi (s : Cache K V) : Nat := (s.main.map (freqOf s.entries)).sum

/-- Fuel that provably suffices for the `insert_m`/`evict_m` recursion
started by pushing `k` into the main queue of `s`. -/
def fuelFor (s : Cache K V) (k : K) : Nat :=
  phi s + freqOf s.entries k + 2

mutual
/-- `Cache::insert_m`: push into main; on overflow, look the victim up in
the entry table (`unwrap` → panic when absent), drop a freq-0 victim,
otherwise decrement its freq, recursively reinsert it, and finally run
`evict_m`. -/
def insert_m : Nat → Cache K V → K → Res (Cache K V)
  | 0, _, _ => .fuelOut
  | fuel + 1, s, key =>
    match push_overwrite s.mainCap s.main key with
    | (m1, none) => .ok { s with main := m1 }
    | (m1, some victim) =>
      match lookupE s.entries victim with
      | none => .panicked
      | some pv =>
        if pv.2 = 0 then
          .ok { s with main := m1, entries := eraseE s.entries victim }
        else
          match insert_m fuel
              { s with main := m1,
                       entries := setFreq s.entries victim (decFreq pv.2) }
              victim with
          | .ok s2 => evict_m fuel s2
          | r => r

/-- `Cache::evict_m`: pop main until a freq-0 victim is dropped (or the
queue empties); a non-zero victim is decremented and reinserted via
`insert_m`. -/
def evict_m : Nat → Cache K V → Res (Cache K V)
  | 0, _ => .fuelOut
  | fuel + 1, s =>
    match s.main with
    | [] => .ok s
    | victim :: rest =>
      match lookupE s.entries victim with
      | none => .panicked
      | some pv =>
        if pv.2 = 0 then
          .ok { s with main := rest, entries := eraseE s.entries victim }
        else
          match insert_m fuel
              { s with main := rest,
                       entries := setFreq s.entries victim (decFreq pv.2) }
              victim with
          | .ok s2 => evict_m fuel s2
          | r => r
end

/-- `Cache::insert_s`: push into small; a freq-0 victim is dropped from
the table and pushed into ghost, a hot victim has its freq reset to 0 and
is promoted via `insert_m`. -/
def insert_s (s : Cache K V) (key : K) : Res (Cache K V) :=
  match push_overwrite s.smallCap s.small key with
  | (s1, none) => .ok { s with small := s1 }
  | (s1, some victim) =>
    match lookupE s.entries victim with
    | none => .panicked
    | some pv =>
      if pv.2 = 0 then
        .ok { s with small := s1, entries := eraseE s.entries victim,
                     ghost := ghost_push s.ghostCap s.ghost victim }
      else
        let t : Cache K V :=
          { s with small := s1, entries := setFreq s.entries victim 0 }
        insert_m (fuelFor t victim) t victim

/-- `Cache::insert`: reject a present key, route through ghost, and only
afterwards add the new entry to the table. -/
def Cache.insert (s : Cache K V) (key : K) (v : V) : Res (Bool × Cache K V) :=
  if containsE s.entries key then .ok (false, s)
  else
    match (if key ∈ s.ghost then insert_m (fuelFor s key) s key
           else insert_s s key) with
    | .ok s1 => .ok (true, { s1 with entries := insertE s1.entries key v })
    | .panicked => .panicked
    | .fuelOut => .fuelOut

/-- The number of live entries in the entry table. -/
def liveEntries (s : Cache K V) : Nat := (keysOf s.entries).length

/-- A public operation: `insert(k, v)` or `lookup(k)`. -/
inductive Op (K V : Type) where
  | ins : K → V → Op K V
  | look : K → Op K V

/-- Run one public operation, keeping only the state. -/
def stepOp (s : Cache K V) : Op K V → Res (Cache K V)
  | .ins k v =>
    match Cache.insert s k v with
    | .ok p => .ok p.2
    | .panicked => .panicked
    | .fuelOut => .fuelOut
  | .look k => .ok (Cache.get s k).2

/-- Run a sequence of public operations. -/
def runOps (s : Cache K V) : List (Op K V) → Res (Cache K V)
  | [] => .ok s
  | o :: os =>
    match stepOp s o with
    | .ok s1 => runOps s1 os
    | .panicked => .panicked
    | .fuelOut => .fuelOut

/-- States reachable from `new(c)` (capacity `c ≥ 1`) by a sequence of
`lookup`/`insert` calls that do not panic. -/
inductive Reach : Nat → Cache K V → Prop where
  | init (c : Nat) (h : 1 ≤ c) : Reach c (mkCache K V c)
  | look {c : Nat} {s : Cache K V} (k : K) :
      Reach c s → Reach c (Cache.get s k).2
  | ins {c : Nat} {s : Cache K V} (k : K) (v : V) (b : Bool)
      (s' : Cache K V) :
      Reach c s → Cache.insert s k v = .ok (b, s') → Reach c s'

/-- `phi` on an explicit entry table and main queue. -/
def phiL (e : List (K × V × Nat)) (m : List K) : Nat :=
  (m.map (freqOf e)).sum

/-! ### The main-queue admission invariant

`insert_m` is called with a pending key `k` that is about to be pushed.
`P` abstracts the keys parked in the small queue (untouched by `insert_m`);
`g` is the at-most-one "phantom" key that may sit in the main queue without
being present in the entry table (the key currently being inserted, before
its entry-table insert). -/

structure PreM (s : Cache K V) (k : K) (P : K → Prop) (g : Option K) :
    Prop where
  mcap : 1 ≤ s.mainCap
  mlen : s.main.length ≤ s.mainCap
  mnd : s.main.Nodup
  knotm : k ∉ s.main
  knd : (keysOf s.entries).Nodup
  hP : ∀ j, P j → j ∉ s.main ∧ j ≠ k
  cover : ∀ j, j ∈ keysOf s.entries → j = k ∨ P j ∨ j ∈ s.main
  msub : ∀ j, j ∈ s.main → j ∈ keysOf s.entries ∨ g = some j
  gph : ∀ j, g = some j → j ∉ keysOf s.entries
  pend : k ∈ keysOf s.entries ∨ g = some k
  fB : ∀ p, p ∈ s.entries → p.2.2 ≤ 3

structure PostM (s : Cache K V) (k : K) (P : K → Prop) (g : Option K)
    (s' : Cache K V) : Prop where
  small_eq : s'.small = s.small
  ghost_eq : s'.ghost = s.ghost
  scap_eq : s'.smallCap = s.smallCap
  mcap_eq : s'.mainCap = s.mainCap
  gcap_eq : s'.ghostCap = s.ghostCap
  mlen : s'.main.length ≤ s.mainCap
  mnd : s'.main.Nodup
  knd : (keysOf s'.entries).Nodup
  ksub : ∀ j, j ∈ keysOf s'.entries → j ∈ keysOf s.entries
  cover : ∀ j, j ∈ keysOf s'.entries → P j ∨ j ∈ s'.main
  msub : ∀ j, j ∈ s'.main → j ∈ keysOf s'.entries ∨ g = some j
  psurv : ∀ j, P j → j ∈ keysOf s.entries → j ∈ keysOf s'.entries
  gsurv : ∀ j, g = some j → (j ∈ s.main ∨ j = k) → j ∈ s'.main
  mold : ∀ j, j ∈ s'.main → j ∈ s.main ∨ j = k
  fB : ∀ p, p ∈ s'.entries → p.2.2 ≤ 3
  phile : phi s' ≤ phi s + freqOf s.entries k

structure PreE (s : Cache K V) (P : K → Prop) (g : Option K) : Prop where
  mcap : 1 ≤ s.mainCap
  mlen : s.main.length ≤ s.mainCap
  mnd : s.main.Nodup
  knd : (keysOf s.entries).Nodup
  hP : ∀ j, P j → j ∉ s.main
  cover : ∀ j, j ∈ keysOf s.entries → P j ∨ j ∈ s.main
  msub : ∀ j, j ∈ s.main → j ∈ keysOf s.entries ∨ g = some j
  gph : ∀ j, g = some j → j ∉ keysOf s.entries
  fB : ∀ p, p ∈ s.entries → p.2.2 ≤ 3

structure PostE (s : Cache K V) (P : K → Prop) (g : Option K)
    (s' : Cache K V) : Prop where
  small_eq : s'.small = s.small
  ghost_eq : s'.ghost = s.ghost
  scap_eq : s'.smallCap = s.smallCap
  mcap_eq : s'.mainCap = s.mainCap
  gcap_eq : s'.ghostCap = s.ghostCap
  mlen : s'.main.length ≤ s.mainCap
  mnd : s'.main.Nodup
  knd : (keysOf s'.entries).Nodup
  ksub : ∀ j, j ∈ keysOf s'.entries → j ∈ keysOf s.entries
  cover : ∀ j, j ∈ keysOf s'.entries → P j ∨ j ∈ s'.main
  msub : ∀ j, j ∈ s'.main → j ∈ keysOf s'.entries ∨ g = some j
  psurv : ∀ j, P j → j ∈ keysOf s.entries → j ∈ keysOf s'.entries
  gsurv : ∀ j, g = some j → j ∈ s.main → j ∈ s'.main
  mold : ∀ j, j ∈ s'.main → j ∈ s.main
  fB : ∀ p, p ∈ s'.entries → p.2.2 ≤ 3
  phile : phi s' ≤ phi s

/-! ### The between-operations invariant of a cache built with capacity c -/

structure Inv (c : Nat) (s : Cache K V) : Prop where
  scap_eq : s.smallCap = max (c / 10) 1
  mcap_eq : s.mainCap = max (c - max (c / 10) 1) 1
  gcap_eq : s.ghostCap = s.mainCap
  slen : s.small.length ≤ s.smallCap
  mlen : s.main.length ≤ s.mainCap
  snd : s.small.Nodup
  mnd : s.main.Nodup
  knd : (keysOf s.entries).Nodup
  disj : ∀ j, j ∈ s.small → j ∉ s.main
  agree1 : ∀ j, j ∈ keysOf s.entries → j ∈ s.small ∨ j ∈ s.main
  agree2s : ∀ j, j ∈ s.small → j ∈ keysOf s.entries
  agree2m : ∀ j, j ∈ s.main → j ∈ keysOf s.entries
  freqB : ∀ p, p ∈ s.entries → p.2.2 ≤ 3
  ghostMain : ∀ j, j ∈ s.ghost → j ∈ keysOf s.entries → j ∈ s.main

/-! ### Concrete states used by the claim analyses -/

/-- State reached from `new(1)` by `insert 0`, `lookup 0`, `insert 1`. -/
def c2state : Cache Nat Nat :=
  { smallCap := 1, mainCap := 1, ghostCap := 1, small := [1], main := [0],
    ghost := [], entries := [(0, 0, 0), (1, 1, 0)] }

/-- State reached from `new(2)` by `insert 0`, `insert 1`, `insert 0`. -/
def c3state : Cache Nat Nat :=
  { smallCap := 1, mainCap := 1, ghostCap := 1, small := [1], main := [0],
    ghost := [0], entries := [(1, 1, 0), (0, 5, 0)] }

/-- State reached from `new(2)` by `insert 0`, `lookup 0`, `insert 1`,
`lookup 0`, `insert 2`, `lookup 2`. -/
def c4pre : Cache Nat Nat :=
  { smallCap := 1, mainCap := 1, ghostCap := 1, small := [2], main := [0],
    ghost := [1], entries := [(0, 0, 1), (2, 2, 1)] }

/-- The state after one more `insert 3` into `c4pre`. -/
def c4post : Cache Nat Nat :=
  { smallCap := 1, mainCap := 1, ghostCap := 1, small := [3], main := [],
    ghost := [1], entries := [(3, 3, 0)] }

/-- State reached from `new(2)` by the scenario of §8 item 4:
`insert (0,1)`, three `lookup 0`, `insert (1,2)`, `insert (2,3)`. -/
def c5state : Cache Nat Nat :=
  { smallCap := 1, mainCap := 1, ghostCap := 1, small := [2], main := [0],
    ghost := [1], entries := [(0, 1, 0), (2, 3, 0)] }

/-- State reached from `new(2)` by `insert (5,7)`. -/
def c6state : Cache Nat Nat :=
  { smallCap := 1, mainCap := 1, ghostCap := 1, small := [5], main := [],
    ghost := [], entries := [(5, 7, 0)] }

/-- Intermediate state of the admission from `c4pre`: the promoted small
victim 2 has had its freq reset to 0 and key 2 is being pushed into the
full main queue holding the hot key 0. -/
def c4mid : Cache Nat Nat :=
  { smallCap := 1, mainCap := 1, ghostCap := 1, small := [3], main := [0],
    ghost := [1], entries := [(0, 0, 1), (2, 2, 0)] }

/-- The state after the recursive admission inside `insert_m` on `c4mid`
drops the cold key 2. -/
def c4mid2 : Cache Nat Nat :=
  { smallCap := 1, mainCap := 1, ghostCap := 1, small := [3], main := [0],
    ghost := [1], entries := [(0, 0, 0)] }

/-- The state after one fresh-key insert into `c5state`. -/
def c5after1 (k1 : Nat) : Cache Nat Nat :=
  { smallCap := 1, mainCap := 1, ghostCap := 1, small := [k1], main := [0],
    ghost := [2], entries := [(0, 1, 0), (k1, 11, 0)] }

def c5after2 (k1 k2 : Nat) : Cache Nat Nat :=
  { smallCap := 1, mainCap := 1, ghostCap := 1, small := [k2], main := [0],
    ghost := [k1], entries := [(0, 1, 0), (k2, 12, 0)] }

def c5after3 (k2 k3 : Nat) : Cache Nat Nat :=
  { smallCap := 1, mainCap := 1, ghostCap := 1, small := [k3], main := [0],
    ghost := [k2], entries := [(0, 1, 0), (k3, 13, 0)] }

/-! ### Helper lemmas about the entry-table operations -/

theorem lookupE_eq_none {l : List (K × V × Nat)} {k : K} :
    lookupE l k = none ↔ k ∉ keysOf l := by
  induction l with
  | nil => simp [lookupE, keysOf]
  | cons p l ih =>
    by_cases h : p.1 = k
    · simp [lookupE, keysOf, h]
    · have hne : ¬ k = p.1 := fun hh => h hh.symm
      simpa [lookupE, keysOf, h, hne] using ih

theorem mem_keysOf_of_lookupE {l : List (K × V × Nat)} {k : K}
    {pv : V × Nat} (h : lookupE l k = some pv) : k ∈ keysOf l := by
  by_contra hk
  rw [← lookupE_eq_none] at hk
  simp [hk] at h

theorem lookupE_isSome_of_mem {l : List (K × V × Nat)} {k : K}
    (h : k ∈ keysOf l) : ∃ pv, lookupE l k = some pv := by
  cases hl : lookupE l k with
  | none => exact absurd (lookupE_eq_none.mp hl) (by simp [h])
  | some pv => exact ⟨pv, rfl⟩

theorem lookupE_mem {l : List (K × V × Nat)} {k : K} {pv : V × Nat}
    (h : lookupE l k = some pv) : (k, pv) ∈ l := by
  induction l with
  | nil => simp [lookupE] at h
  | cons p l ih =>
    by_cases hp : p.1 = k
    · simp [lookupE, hp] at h
      have hp2 : p = (k, pv) := by
        obtain ⟨a, b⟩ := p
        simp at hp h
        simp [hp, h]
      rw [hp2]
      exact List.mem_cons_self _ _
    · simp [lookupE, hp] at h
      exact List.mem_cons_of_mem _ (ih h)

theorem mem_keysOf_eraseE {l : List (K × V × Nat)} {k j : K} :
    j ∈ keysOf (eraseE l k) ↔ j ∈ keysOf l ∧ j ≠ k := by
  induction l with
  | nil => simp [eraseE, keysOf]
  | cons p l ih =>
    by_cases h : p.1 = k
    · have e1 : eraseE (p :: l) k = eraseE l k := by simp [eraseE, h]
      rw [e1, ih]
      simp only [keysOf, List.map_cons, List.mem_cons]
      constructor
      · rintro ⟨h1, h2⟩
        exact ⟨Or.inr h1, h2⟩
      · rintro ⟨h1 | h1, h2⟩
        · exact absurd (h1.trans h) h2
        · exact ⟨h1, h2⟩
    · have e1 : eraseE (p :: l) k = p :: eraseE l k := by simp [eraseE, h]
      rw [e1]
      simp only [keysOf, List.map_cons, List.mem_cons] at ih ⊢
      rw [ih]
      constructor
      · rintro (h1 | ⟨h1, h2⟩)
        · refine ⟨Or.inl h1, ?_⟩
          rw [h1]
          exact h
        · exact ⟨Or.inr h1, h2⟩
      · rintro ⟨h1 | h1, h2⟩
        · exact Or.inl h1
        · exact Or.inr ⟨h1, h2⟩

theorem lookupE_eraseE_ne {l : List (K × V × Nat)} {k j : K}
    (h : j ≠ k) : lookupE (eraseE l k) j = lookupE l j := by
  have hkj : ¬ k = j := fun hh => h hh.symm
  induction l with
  | nil => simp [eraseE]
  | cons p l ih =>
    by_cases hp : p.1 = k
    · simp [eraseE, lookupE, hp, hkj, ih]
    · by_cases hj : p.1 = j <;> simp [eraseE, lookupE, hp, hj, hkj, h, ih]

theorem freqOf_eraseE_ne {l : List (K × V × Nat)} {k j : K}
    (h : j ≠ k) : freqOf (eraseE l k) j = freqOf l j := by
  simp [freqOf, lookupE_eraseE_ne h]

theorem keysOf_eraseE_sublist (l : List (K × V × Nat)) (k : K) :
    List.Sublist (keysOf (eraseE l k)) (keysOf l) := by
  induction l with
  | nil => simp [eraseE, keysOf]
  | cons p l ih =>
    by_cases h : p.1 = k
    · have e1 : eraseE (p :: l) k = eraseE l k := by simp [eraseE, h]
      rw [e1]
      simp only [keysOf, List.map_cons]
      exact ih.cons p.1
    · have e1 : eraseE (p :: l) k = p :: eraseE l k := by simp [eraseE, h]
      rw [e1]
      simp only [keysOf, List.map_cons]
      exact ih.cons₂ p.1

theorem mem_eraseE {l : List (K × V × Nat)} {k : K} {p : K × V × Nat}
    (h : p ∈ eraseE l k) : p ∈ l := by
  induction l with
  | nil => simp [eraseE] at h
  | cons q l ih =>
    by_cases hq : q.1 = k
    · simp [eraseE, hq] at h
      exact List.mem_cons_of_mem _ (ih h)
    · simp [eraseE, hq] at h
      rcases h with h | h
      · simp [h]
      · exact List.mem_cons_of_mem _ (ih h)

theorem keysOf_setFreq (l : List (K × V × Nat)) (k : K) (f : Nat) :
    keysOf (setFreq l k f) = keysOf l := by
  induction l with
  | nil => simp [setFreq, keysOf]
  | cons p l ih =>
    by_cases h : p.1 = k <;> simp [setFreq, keysOf, h] at * <;> exact ih

theorem lookupE_setFreq_ne {l : List (K × V × Nat)} {k j : K} {f : Nat}
    (h : j ≠ k) : lookupE (setFreq l k f) j = lookupE l j := by
  have hkj : ¬ k = j := fun hh => h hh.symm
  induction l with
  | nil => simp [setFreq]
  | cons p l ih =>
    by_cases hp : p.1 = k
    · simp [setFreq, lookupE, hp, hkj, ih]
    · by_cases hj : p.1 = j <;> simp [setFreq, lookupE, hp, hj, hkj, h, ih]

theorem lookupE_setFreq_self (l : List (K × V × Nat)) (k : K) (f : Nat) :
    lookupE (setFreq l k f) k = (lookupE l k).map (fun pv => (pv.1, f)) := by
  induction l with
  | nil => simp [setFreq, lookupE]
  | cons p l ih =>
    by_cases hp : p.1 = k <;> simp [setFreq, lookupE, hp, ih]

theorem freqOf_setFreq_ne {l : List (K × V × Nat)} {k j : K} {f : Nat}
    (h : j ≠ k) : freqOf (setFreq l k f) j = freqOf l j := by
  simp [freqOf, lookupE_setFreq_ne h]

theorem freqOf_setFreq_self {l : List (K × V × Nat)} {k : K} {f : Nat}
    (h : k ∈ keysOf l) : freqOf (setFreq l k f) k = f := by
  obtain ⟨pv, hpv⟩ := lookupE_isSome_of_mem h
  simp [freqOf, lookupE_setFreq_self, hpv]

theorem mem_setFreq {l : List (K × V × Nat)} {k : K} {f : Nat}
    {p : K × V × Nat} (h : p ∈ setFreq l k f) : p.2.2 = f ∨ p ∈ l := by
  induction l with
  | nil => simp [setFreq] at h
  | cons q l ih =>
    by_cases hq : q.1 = k
    · simp [setFreq, hq] at h
      rcases h with h | h
      · left; rw [h]
      · rcases ih h with h1 | h1
        · exact Or.inl h1
        · exact Or.inr (List.mem_cons_of_mem _ h1)
    · simp [setFreq, hq] at h
      rcases h with h | h
      · exact Or.inr (by simp [h])
      · rcases ih h with h1 | h1
        · exact Or.inl h1
        · exact Or.inr (List.mem_cons_of_mem _ h1)

theorem nodup_snoc {l : List K} {a : K} (h : l.Nodup) (ha : a ∉ l) :
    (l ++ [a]).Nodup := by
  rw [List.nodup_append]
  refine ⟨h, by simp, ?_⟩
  intro x hx hxa
  simp at hxa
  subst hxa
  exact ha hx

theorem lookupE_append_of_none {t l2 : List (K × V × Nat)} {k : K}
    (hn : lookupE t k = none) : lookupE (t ++ l2) k = lookupE l2 k := by
  induction t with
  | nil => simp
  | cons p t ih =>
    by_cases hp : p.1 = k
    · simp [lookupE, hp] at hn
    · simp [lookupE, hp] at hn ⊢
      exact ih hn

theorem lookupE_append_of_some {t l2 : List (K × V × Nat)} {k : K}
    {pv : V × Nat} (hs : lookupE t k = some pv) :
    lookupE (t ++ l2) k = some pv := by
  induction t with
  | nil => simp [lookupE] at hs
  | cons p t ih =>
    by_cases hp : p.1 = k
    · simp [lookupE, hp] at hs ⊢
      exact hs
    · simp [lookupE, hp] at hs ⊢
      exact ih hs

theorem lookupE_eraseE_self (l : List (K × V × Nat)) (k : K) :
    lookupE (eraseE l k) k = none := by
  rw [lookupE_eq_none]
  intro h
  exact (mem_keysOf_eraseE.mp h).2 rfl

theorem keysOf_insertE (l : List (K × V × Nat)) (k : K) (v : V) :
    keysOf (insertE l k v) = keysOf (eraseE l k) ++ [k] := by
  simp [insertE, keysOf]

theorem mem_keysOf_insertE {l : List (K × V × Nat)} {k j : K} {v : V} :
    j ∈ keysOf (insertE l k v) ↔ j ∈ keysOf l ∨ j = k := by
  rw [keysOf_insertE, List.mem_append, List.mem_singleton]
  constructor
  · rintro (h1 | h1)
    · exact Or.inl (mem_keysOf_eraseE.mp h1).1
    · exact Or.inr h1
  · rintro (h1 | h1)
    · by_cases hk : j = k
      · exact Or.inr hk
      · exact Or.inl (mem_keysOf_eraseE.mpr ⟨h1, hk⟩)
    · exact Or.inr h1

theorem lookupE_insertE_self (l : List (K × V × Nat)) (k : K) (v : V) :
    lookupE (insertE l k v) k = some (v, 0) := by
  unfold insertE
  rw [lookupE_append_of_none (lookupE_eraseE_self l k)]
  simp [lookupE]

theorem lookupE_insertE_ne {l : List (K × V × Nat)} {k j : K} {v : V}
    (h : j ≠ k) : lookupE (insertE l k v) j = lookupE l j := by
  unfold insertE
  cases he : lookupE (eraseE l k) j with
  | none =>
    have hkj : ¬ k = j := fun hh => h hh.symm
    rw [lookupE_append_of_none he]
    rw [lookupE_eraseE_ne h] at he
    simp [lookupE, hkj, he]
  | some pv =>
    rw [lookupE_append_of_some he]
    rw [lookupE_eraseE_ne h] at he
    exact he.symm

theorem nodup_keysOf_insertE {l : List (K × V × Nat)} {k : K} {v : V}
    (h : (keysOf l).Nodup) : (keysOf (insertE l k v)).Nodup := by
  rw [keysOf_insertE]
  exact nodup_snoc ((keysOf_eraseE_sublist l k).nodup h)
    (fun hk => (mem_keysOf_eraseE.mp hk).2 rfl)

theorem decFreq_lt {f : Nat} (h : 1 ≤ f) : decFreq f < f := by
  unfold decFreq
  omega

theorem decFreq_le3 {f : Nat} (h1 : 1 ≤ f) (h3 : f ≤ 3) : decFreq f ≤ 3 := by
  unfold decFreq
  omega

theorem decFreq_eq {f : Nat} (h1 : 1 ≤ f) (h3 : f ≤ 255) :
    decFreq f = f - 1 := by
  unfold decFreq
  omega

/-! ### Sum-of-frequencies bookkeeping -/

theorem phi_def (s : Cache K V) : phi s = phiL s.entries s.main := rfl

theorem phiL_cons (e : List (K × V × Nat)) (v : K) (m : List K) :
    phiL e (v :: m) = freqOf e v + phiL e m := by
  simp [phiL]

theorem phiL_append (e : List (K × V × Nat)) (a b : List K) :
    phiL e (a ++ b) = phiL e a + phiL e b := by
  simp [phiL]

theorem phiL_congr {e1 e2 : List (K × V × Nat)} {m : List K}
    (h : ∀ j ∈ m, freqOf e1 j = freqOf e2 j) : phiL e1 m = phiL e2 m := by
  unfold phiL
  rw [List.map_congr_left h]

theorem phiL_setFreq_not_mem {e : List (K × V × Nat)} {v : K} {f : Nat}
    {m : List K} (h : v ∉ m) : phiL (setFreq e v f) m = phiL e m :=
  phiL_congr fun j hj => freqOf_setFreq_ne (fun he => h (he ▸ hj))

theorem phiL_eraseE_not_mem {e : List (K × V × Nat)} {v : K} {m : List K}
    (h : v ∉ m) : phiL (eraseE e v) m = phiL e m :=
  phiL_congr fun j hj => freqOf_eraseE_ne (fun he => h (he ▸ hj))

theorem freqOf_eq_of_lookup {e : List (K × V × Nat)} {v : K} {pv : V × Nat}
    (h : lookupE e v = some pv) : freqOf e v = pv.2 := by
  simp [freqOf, h]

theorem lookup_le3 {e : List (K × V × Nat)} {v : K} {pv : V × Nat}
    (fB : ∀ p, p ∈ e → p.2.2 ≤ 3) (h : lookupE e v = some pv) : pv.2 ≤ 3 :=
  fB (v, pv) (lookupE_mem h)

/-- Counting step for the capacity bound: a duplicate-free key list covered
by two lists is no longer than their combined length. -/
theorem length_le_of_cover {keys a b : List K} (hnd : keys.Nodup)
    (hcov : ∀ j, j ∈ keys → j ∈ a ∨ j ∈ b) :
    keys.length ≤ a.length + b.length := by
  classical
  have h1 : keys.toFinset ⊆ a.toFinset ∪ b.toFinset := by
    intro x hx
    simp only [List.mem_toFinset] at hx
    rcases hcov x hx with h | h <;> simp [h]
  calc keys.length = keys.toFinset.card :=
        (List.toFinset_card_of_nodup hnd).symm
    _ ≤ (a.toFinset ∪ b.toFinset).card := Finset.card_le_card h1
    _ ≤ a.toFinset.card + b.toFinset.card := Finset.card_union_le _ _
    _ ≤ a.length + b.length :=
        Nat.add_le_add (List.toFinset_card_le a) (List.toFinset_card_le b)

/-- The recursive call inside `insert_m` satisfies the admission
precondition again, with the decremented victim as the new pending key. -/
theorem preM_step_of_preM {s : Cache K V} {k v : K} {rest : List K}
    {pv : V × Nat} {P : K → Prop} {g : Option K}
    (pre : PreM s k P g) (hm : s.main = v :: rest)
    (hv : lookupE s.entries v = some pv) (hnz : pv.2 ≠ 0) :
    PreM { s with main := rest ++ [k],
                  entries := setFreq s.entries v (decFreq pv.2) } v P g := by
  have hvmem : v ∈ s.main := by
    rw [hm]
    exact List.mem_cons_self _ _
  have hkv : k ≠ v := fun h => pre.knotm (h ▸ hvmem)
  have hnd := pre.mnd
  rw [hm, List.nodup_cons] at hnd
  have hkrest : k ∉ rest := fun h =>
    pre.knotm (by rw [hm]; exact List.mem_cons_of_mem _ h)
  have hvkeys : v ∈ keysOf s.entries := mem_keysOf_of_lookupE hv
  have hpv1 : 1 ≤ pv.2 := Nat.one_le_iff_ne_zero.mpr hnz
  have hpv3 : pv.2 ≤ 3 := lookup_le3 pre.fB hv
  have hlen : rest.length + 1 ≤ s.mainCap := by
    have h := pre.mlen
    rw [hm] at h
    simpa using h
  refine
    { mcap := pre.mcap
      mlen := by simpa using hlen
      mnd := nodup_snoc hnd.2 hkrest
      knotm := ?_
      knd := by
        show (keysOf (setFreq s.entries v (decFreq pv.2))).Nodup
        rw [keysOf_setFreq]
        exact pre.knd
      hP := ?_
      cover := ?_
      msub := ?_
      gph := ?_
      pend := ?_
      fB := ?_ }
  · intro h
    rcases List.mem_append.mp h with h | h
    · exact hnd.1 h
    · simp at h
      exact hkv h.symm
  · intro j hPj
    obtain ⟨h1, h2⟩ := pre.hP j hPj
    constructor
    · intro hh
      rcases List.mem_append.mp hh with hh | hh
      · exact h1 (by rw [hm]; exact List.mem_cons_of_mem _ hh)
      · simp at hh
        exact h2 hh
    · exact fun he => h1 (he ▸ hvmem)
  · intro j hj
    have hj' : j ∈ keysOf s.entries := by
      have : j ∈ keysOf (setFreq s.entries v (decFreq pv.2)) := hj
      rwa [keysOf_setFreq] at this
    rcases pre.cover j hj' with h | h | h
    · subst h
      right; right
      exact List.mem_append_right _ (by simp)
    · right; left
      exact h
    · rw [hm] at h
      rcases List.mem_cons.mp h with h | h
      · left
        exact h
      · right; right
        exact List.mem_append_left _ h
  · intro j hj
    rcases List.mem_append.mp hj with h | h
    · have hjm : j ∈ s.main := by
        rw [hm]
        exact List.mem_cons_of_mem _ h
      rcases pre.msub j hjm with h1 | h1
      · left
        show j ∈ keysOf (setFreq s.entries v (decFreq pv.2))
        rwa [keysOf_setFreq]
      · right
        exact h1
    · simp at h
      subst h
      rcases pre.pend with h1 | h1
      · left
        show j ∈ keysOf (setFreq s.entries v (decFreq pv.2))
        rwa [keysOf_setFreq]
      · right
        exact h1
  · intro j hg
    have h1 := pre.gph j hg
    show j ∉ keysOf (setFreq s.entries v (decFreq pv.2))
    rwa [keysOf_setFreq]
  · left
    show v ∈ keysOf (setFreq s.entries v (decFreq pv.2))
    rwa [keysOf_setFreq]
  · intro p hp
    rcases mem_setFreq hp with h | h
    · rw [h]
      exact decFreq_le3 hpv1 hpv3
    · exact pre.fB p h

/-- The call to `insert_m` inside the `evict_m` loop satisfies the
admission precondition, with the decremented victim as pending key. -/
theorem preM_step_of_preE {s : Cache K V} {v : K} {rest : List K}
    {pv : V × Nat} {P : K → Prop} {g : Option K}
    (pre : PreE s P g) (hm : s.main = v :: rest)
    (hv : lookupE s.entries v = some pv) (hnz : pv.2 ≠ 0) :
    PreM { s with main := rest,
                  entries := setFreq s.entries v (decFreq pv.2) } v P g := by
  have hvmem : v ∈ s.main := by
    rw [hm]
    exact List.mem_cons_self _ _
  have hnd := pre.mnd
  rw [hm, List.nodup_cons] at hnd
  have hvkeys : v ∈ keysOf s.entries := mem_keysOf_of_lookupE hv
  have hpv1 : 1 ≤ pv.2 := Nat.one_le_iff_ne_zero.mpr hnz
  have hpv3 : pv.2 ≤ 3 := lookup_le3 pre.fB hv
  have hlen : rest.length + 1 ≤ s.mainCap := by
    have h := pre.mlen
    rw [hm] at h
    simpa using h
  refine
    { mcap := pre.mcap
      mlen := by
        show rest.length ≤ s.mainCap
        omega
      mnd := hnd.2
      knotm := hnd.1
      knd := by
        show (keysOf (setFreq s.entries v (decFreq pv.2))).Nodup
        rw [keysOf_setFreq]
        exact pre.knd
      hP := ?_
      cover := ?_
      msub := ?_
      gph := ?_
      pend := ?_
      fB := ?_ }
  · intro j hPj
    have h1 := pre.hP j hPj
    constructor
    · exact fun hh => h1 (by rw [hm]; exact List.mem_cons_of_mem _ hh)
    · exact fun he => h1 (he ▸ hvmem)
  · intro j hj
    have hj' : j ∈ keysOf s.entries := by
      have : j ∈ keysOf (setFreq s.entries v (decFreq pv.2)) := hj
      rwa [keysOf_setFreq] at this
    rcases pre.cover j hj' with h | h
    · right; left
      exact h
    · rw [hm] at h
      rcases List.mem_cons.mp h with h | h
      · left
        exact h
      · right; right
        exact h
  · intro j hj
    have hjm : j ∈ s.main := by
      rw [hm]
      exact List.mem_cons_of_mem _ hj
    rcases pre.msub j hjm with h1 | h1
    · left
      show j ∈ keysOf (setFreq s.entries v (decFreq pv.2))
      rwa [keysOf_setFreq]
    · right
      exact h1
  · intro j hg
    have h1 := pre.gph j hg
    show j ∉ keysOf (setFreq s.entries v (decFreq pv.2))
    rwa [keysOf_setFreq]
  · left
    show v ∈ keysOf (setFreq s.entries v (decFreq pv.2))
    rwa [keysOf_setFreq]
  · intro p hp
    rcases mem_setFreq hp with h | h
    · rw [h]
      exact decFreq_le3 hpv1 hpv3
    · exact pre.fB p h

/-- After a recursive admission, the state handed to `evict_m` satisfies
the eviction precondition. -/
theorem preE_of_postM {s1 s2 : Cache K V} {v : K} {P : K → Prop}
    {g : Option K} (pre : PreM s1 v P g) (post : PostM s1 v P g s2) :
    PreE s2 P g := by
  refine
    { mcap := ?_
      mlen := ?_
      mnd := post.mnd
      knd := post.knd
      hP := ?_
      cover := post.cover
      msub := post.msub
      gph := ?_
      fB := post.fB }
  · rw [post.mcap_eq]
    exact pre.mcap
  · rw [post.mcap_eq]
    exact post.mlen
  · intro j hPj hj
    obtain ⟨h1, h2⟩ := pre.hP j hPj
    rcases post.mold j hj with h | h
    · exact h1 h
    · exact h2 h
  · intro j hg hj
    exact pre.gph j hg (post.ksub j hj)

/-- Mutual fuel-sufficiency and invariant preservation for the main-queue
admission (`insert_m`) and the eviction sweep (`evict_m`): with fuel at
least the frequency mass plus two, neither runs out of fuel, and a normal
result preserves the admission invariant. -/
theorem admission_spec : ∀ fuel : Nat,
    (∀ (s : Cache K V) (k : K) (P : K → Prop) (g : Option K),
      PreM s k P g → fuelFor s k ≤ fuel →
      insert_m fuel s k ≠ Res.fuelOut ∧
      ∀ s', insert_m fuel s k = Res.ok s' → PostM s k P g s') ∧
    (∀ (s : Cache K V) (P : K → Prop) (g : Option K),
      PreE s P g → phi s + 2 ≤ fuel →
      evict_m fuel s ≠ Res.fuelOut ∧
      ∀ s', evict_m fuel s = Res.ok s' → PostE s P g s') := by
  intro fuel
  induction fuel with
  | zero =>
    constructor
    · intro s k P g _ hfuel
      exfalso
      unfold fuelFor at hfuel
      omega
    · intro s P g _ hfuel
      exfalso
      omega
  | succ fuel ih =>
    obtain ⟨ihM, ihE⟩ := ih
    constructor
    · -- the insert_m half
      intro s k P g pre hfuel
      by_cases hlt : s.main.length < s.mainCap
      · -- no overflow: plain push
        have hpush : push_overwrite s.mainCap s.main k =
            (s.main ++ [k], none) := by
          simp [push_overwrite, hlt]
        have he : insert_m (fuel + 1) s k =
            Res.ok { s with main := s.main ++ [k] } := by
          simp [insert_m, hpush]
        refine ⟨?_, ?_⟩
        · rw [he]
          simp
        · intro s' hok
          have hseq : { s with main := s.main ++ [k] } = s' := by
            have h2 := he.symm.trans hok
            injection h2
          subst hseq
          refine
            { small_eq := rfl
              ghost_eq := rfl
              scap_eq := rfl
              mcap_eq := rfl
              gcap_eq := rfl
              mlen := by
                show (s.main ++ [k]).length ≤ s.mainCap
                simp
                omega
              mnd := nodup_snoc pre.mnd pre.knotm
              knd := pre.knd
              ksub := fun j h => h
              cover := ?_
              msub := ?_
              psurv := fun j _ h => h
              gsurv := ?_
              mold := ?_
              fB := pre.fB
              phile := ?_ }
          · intro j hj
            rcases pre.cover j hj with h | h | h
            · right
              rw [h]
              exact List.mem_append_right _ (by simp)
            · left
              exact h
            · right
              exact List.mem_append_left _ h
          · intro j hj
            have hj' : j ∈ s.main ++ [k] := hj
            rcases List.mem_append.mp hj' with h | h
            · exact pre.msub j h
            · simp at h
              rcases pre.pend with h1 | h1
              · left
                rw [h]
                exact h1
              · right
                rw [h]
                exact h1
          · intro j hg hjk
            show j ∈ s.main ++ [k]
            rcases hjk with h | h
            · exact List.mem_append_left _ h
            · rw [h]
              exact List.mem_append_right _ (by simp)
          · intro j hj
            have hj' : j ∈ s.main ++ [k] := hj
            rcases List.mem_append.mp hj' with h | h
            · exact Or.inl h
            · right
              simpa using h
          · have e1 : phi { s with main := s.main ++ [k] } =
                phi s + freqOf s.entries k := by
              show phiL s.entries (s.main ++ [k]) = _
              rw [phiL_append, phi_def]
              simp [phiL]
            exact e1.le
      · -- overflow: the ring pops its head
        cases hm : s.main with
        | nil =>
          exfalso
          rw [hm] at hlt
          simp at hlt
          have := pre.mcap
          omega
        | cons v rest =>
          have hlt2 : ¬ (v :: rest).length < s.mainCap := by
            rw [← hm]
            exact hlt
          have hpush : push_overwrite s.mainCap s.main k =
              (rest ++ [k], some v) := by
            rw [hm]
            unfold push_overwrite
            rw [if_neg hlt2]
          cases hv : lookupE s.entries v with
          | none =>
            have he : insert_m (fuel + 1) s k = Res.panicked := by
              simp [insert_m, hpush, hv]
            refine ⟨?_, ?_⟩
            · rw [he]
              simp
            · intro s' hok
              rw [he] at hok
              exact absurd hok (by simp)
          | some pv =>
            have hvmem : v ∈ s.main := by
              rw [hm]
              exact List.mem_cons_self _ _
            have hkv : k ≠ v := fun h => pre.knotm (h ▸ hvmem)
            have hnd := pre.mnd
            rw [hm, List.nodup_cons] at hnd
            have hkrest : k ∉ rest := fun h =>
              pre.knotm (by rw [hm]; exact List.mem_cons_of_mem _ h)
            have hvkeys : v ∈ keysOf s.entries := mem_keysOf_of_lookupE hv
            have hlen : rest.length + 1 ≤ s.mainCap := by
              have h := pre.mlen
              rw [hm] at h
              simpa using h
            have eqC : phi s = pv.2 + phiL s.entries rest := by
              rw [phi_def, hm, phiL_cons, freqOf_eq_of_lookup hv]
            by_cases hz : pv.2 = 0
            · -- the victim is cold: drop it and finish
              have he : insert_m (fuel + 1) s k =
                  Res.ok { s with main := rest ++ [k],
                                  entries := eraseE s.entries v } := by
                simp [insert_m, hpush, hv, hz]
              refine ⟨?_, ?_⟩
              · rw [he]
                simp
              · intro s' hok
                have hseq : { s with main := rest ++ [k],
                                     entries := eraseE s.entries v } = s' := by
                  have h2 := he.symm.trans hok
                  injection h2
                subst hseq
                refine
                  { small_eq := rfl
                    ghost_eq := rfl
                    scap_eq := rfl
                    mcap_eq := rfl
                    gcap_eq := rfl
                    mlen := by
                      show (rest ++ [k]).length ≤ s.mainCap
                      simpa using hlen
                    mnd := nodup_snoc hnd.2 hkrest
                    knd := (keysOf_eraseE_sublist _ _).nodup pre.knd
                    ksub := fun j hj => (mem_keysOf_eraseE.mp hj).1
                    cover := ?_
                    msub := ?_
                    psurv := ?_
                    gsurv := ?_
                    mold := ?_
                    fB := fun p hp => pre.fB p (mem_eraseE hp)
                    phile := ?_ }
                · intro j hj
                  obtain ⟨hj1, hj2⟩ := mem_keysOf_eraseE.mp hj
                  rcases pre.cover j hj1 with h | h | h
                  · right
                    rw [h]
                    exact List.mem_append_right _ (by simp)
                  · left
                    exact h
                  · right
                    rw [hm] at h
                    rcases List.mem_cons.mp h with h1 | h1
                    · exact absurd h1 hj2
                    · exact List.mem_append_left _ h1
                · intro j hj
                  have hj' : j ∈ rest ++ [k] := hj
                  rcases List.mem_append.mp hj' with h | h
                  · have hjm : j ∈ s.main := by
                      rw [hm]
                      exact List.mem_cons_of_mem _ h
                    rcases pre.msub j hjm with h1 | h1
                    · left
                      show j ∈ keysOf (eraseE s.entries v)
                      exact mem_keysOf_eraseE.mpr
                        ⟨h1, fun he2 => hnd.1 (he2 ▸ h)⟩
                    · right
                      exact h1
                  · simp at h
                    rcases pre.pend with h1 | h1
                    · left
                      show j ∈ keysOf (eraseE s.entries v)
                      rw [h]
                      exact mem_keysOf_eraseE.mpr ⟨h1, hkv⟩
                    · right
                      rw [h]
                      exact h1
                · intro j hPj hj
                  show j ∈ keysOf (eraseE s.entries v)
                  exact mem_keysOf_eraseE.mpr
                    ⟨hj, fun he2 => (pre.hP j hPj).1 (he2 ▸ hvmem)⟩
                · intro j hg hjk
                  show j ∈ rest ++ [k]
                  rcases hjk with h | h
                  · rw [hm] at h
                    rcases List.mem_cons.mp h with h1 | h1
                    · exact absurd (h1 ▸ hvkeys) (pre.gph j hg)
                    · exact List.mem_append_left _ h1
                  · rw [h]
                    exact List.mem_append_right _ (by simp)
                · intro j hj
                  have hj' : j ∈ rest ++ [k] := hj
                  rcases List.mem_append.mp hj' with h | h
                  · left
                    rw [hm]
                    exact List.mem_cons_of_mem _ h
                  · right
                    simpa using h
                · have e1 : phi { s with main := rest ++ [k],
                                         entries := eraseE s.entries v } =
                      phiL s.entries rest + freqOf s.entries k := by
                    show phiL (eraseE s.entries v) (rest ++ [k]) = _
                    rw [phiL_append, phiL_eraseE_not_mem hnd.1]
                    congr 1
                    show phiL (eraseE s.entries v) [k] = freqOf s.entries k
                    simp [phiL, freqOf_eraseE_ne hkv]
                  rw [e1, eqC]
                  omega
            · -- the victim is hot: decrement, reinsert, then sweep
              have hpv1 : 1 ≤ pv.2 := Nat.one_le_iff_ne_zero.mpr hz
              have hpv3 : pv.2 ≤ 3 := lookup_le3 pre.fB hv
              have hdec : decFreq pv.2 = pv.2 - 1 :=
                decFreq_eq hpv1 (by omega)
              have preRec := preM_step_of_preM pre hm hv hz
              have eqA : phi { s with main := rest ++ [k],
                                      entries := setFreq s.entries v (decFreq pv.2) } =
                  phiL s.entries rest + freqOf s.entries k := by
                show phiL (setFreq s.entries v (decFreq pv.2))
                    (rest ++ [k]) = _
                rw [phiL_append, phiL_setFreq_not_mem hnd.1]
                congr 1
                show phiL (setFreq s.entries v (decFreq pv.2)) [k] =
                    freqOf s.entries k
                simp [phiL, freqOf_setFreq_ne hkv]
              have eqB : freqOf (setFreq s.entries v (decFreq pv.2)) v =
                  pv.2 - 1 := by
                rw [freqOf_setFreq_self hvkeys, hdec]
              have hfuelRec : fuelFor { s with main := rest ++ [k],
                                               entries := setFreq s.entries v (decFreq pv.2) } v ≤
                  fuel := by
                unfold fuelFor at hfuel ⊢
                show phi { s with main := rest ++ [k],
                                  entries := setFreq s.entries v (decFreq pv.2) } +
                    freqOf (setFreq s.entries v (decFreq pv.2)) v + 2 ≤ fuel
                rw [eqA, eqB]
                rw [eqC] at hfuel
                omega
              obtain ⟨hnf1, hpost1⟩ := ihM _ v P g preRec hfuelRec
              cases hrec : insert_m fuel { s with main := rest ++ [k],
                                                  entries := setFreq s.entries v (decFreq pv.2) } v with
              | fuelOut => exact absurd hrec hnf1
              | panicked =>
                have he : insert_m (fuel + 1) s k = Res.panicked := by
                  simp [insert_m, hpush, hv, hz, hrec]
                refine ⟨?_, ?_⟩
                · rw [he]
                  simp
                · intro s' hok
                  rw [he] at hok
                  exact absurd hok (by simp)
              | ok s2 =>
                have he : insert_m (fuel + 1) s k = evict_m fuel s2 := by
                  simp [insert_m, hpush, hv, hz, hrec]
                have post1 := hpost1 s2 hrec
                have preE2 := preE_of_postM preRec post1
                have hphi1 : phi s2 ≤ phi { s with main := rest ++ [k],
                                                   entries := setFreq s.entries v (decFreq pv.2) } +
                    freqOf (setFreq s.entries v (decFreq pv.2)) v :=
                  post1.phile
                rw [eqA, eqB] at hphi1
                have hfuelE : phi s2 + 2 ≤ fuel := by
                  unfold fuelFor at hfuel
                  rw [eqC] at hfuel
                  omega
                obtain ⟨hnf2, hpost2⟩ := ihE s2 P g preE2 hfuelE
                refine ⟨?_, ?_⟩
                · rw [he]
                  exact hnf2
                · intro s' hok
                  rw [he] at hok
                  have post2 := hpost2 s' hok
                  refine
                    { small_eq := post2.small_eq.trans post1.small_eq
                      ghost_eq := post2.ghost_eq.trans post1.ghost_eq
                      scap_eq := post2.scap_eq.trans post1.scap_eq
                      mcap_eq := post2.mcap_eq.trans post1.mcap_eq
                      gcap_eq := post2.gcap_eq.trans post1.gcap_eq
                      mlen := ?_
                      mnd := post2.mnd
                      knd := post2.knd
                      ksub := ?_
                      cover := post2.cover
                      msub := post2.msub
                      psurv := ?_
                      gsurv := ?_
                      mold := ?_
                      fB := post2.fB
                      phile := ?_ }
                  · have h1 := post2.mlen
                    rw [post1.mcap_eq] at h1
                    exact h1
                  · intro j hj
                    have h1 : j ∈ keysOf (setFreq s.entries v
                        (decFreq pv.2)) := post1.ksub j (post2.ksub j hj)
                    rwa [keysOf_setFreq] at h1
                  · intro j hPj hj
                    have h1 : j ∈ keysOf (setFreq s.entries v
                        (decFreq pv.2)) := by
                      rw [keysOf_setFreq]
                      exact hj
                    exact post2.psurv j hPj (post1.psurv j hPj h1)
                  · intro j hg hjk
                    apply post2.gsurv j hg
                    apply post1.gsurv j hg
                    left
                    show j ∈ rest ++ [k]
                    rcases hjk with h | h
                    · rw [hm] at h
                      rcases List.mem_cons.mp h with h1 | h1
                      · exact absurd (h1 ▸ hvkeys) (pre.gph j hg)
                      · exact List.mem_append_left _ h1
                    · rw [h]
                      exact List.mem_append_right _ (by simp)
                  · intro j hj
                    rcases post1.mold j (post2.mold j hj) with h1 | h1
                    · have h2 : j ∈ rest ++ [k] := h1
                      rcases List.mem_append.mp h2 with h3 | h3
                      · left
                        rw [hm]
                        exact List.mem_cons_of_mem _ h3
                      · right
                        simpa using h3
                    · left
                      rw [hm, h1]
                      exact List.mem_cons_self _ _
                  · have h1 := post2.phile
                    rw [eqC]
                    omega
    · -- the evict_m half
      intro s P g pre hfuel
      cases hm : s.main with
      | nil =>
        have he : evict_m (fuel + 1) s = Res.ok s := by
          simp [evict_m, hm]
        refine ⟨?_, ?_⟩
        · rw [he]
          simp
        · intro s' hok
          have hseq : s = s' := by
            have h2 := he.symm.trans hok
            injection h2
          subst hseq
          exact
            { small_eq := rfl
              ghost_eq := rfl
              scap_eq := rfl
              mcap_eq := rfl
              gcap_eq := rfl
              mlen := pre.mlen
              mnd := pre.mnd
              knd := pre.knd
              ksub := fun j h => h
              cover := pre.cover
              msub := pre.msub
              psurv := fun j _ h => h
              gsurv := fun j _ h => h
              mold := fun j h => h
              fB := pre.fB
              phile := le_refl _ }
      | cons v rest =>
        cases hv : lookupE s.entries v with
        | none =>
          have he : evict_m (fuel + 1) s = Res.panicked := by
            simp [evict_m, hm, hv]
          refine ⟨?_, ?_⟩
          · rw [he]
            simp
          · intro s' hok
            rw [he] at hok
            exact absurd hok (by simp)
        | some pv =>
          have hvmem : v ∈ s.main := by
            rw [hm]
            exact List.mem_cons_self _ _
          have hnd := pre.mnd
          rw [hm, List.nodup_cons] at hnd
          have hvkeys : v ∈ keysOf s.entries := mem_keysOf_of_lookupE hv
          have hlen : rest.length + 1 ≤ s.mainCap := by
            have h := pre.mlen
            rw [hm] at h
            simpa using h
          have eqC : phi s = pv.2 + phiL s.entries rest := by
            rw [phi_def, hm, phiL_cons, freqOf_eq_of_lookup hv]
          by_cases hz : pv.2 = 0
          · -- cold victim: evict and stop
            have he : evict_m (fuel + 1) s =
                Res.ok { s with main := rest,
                                entries := eraseE s.entries v } := by
              simp [evict_m, hm, hv, hz]
            refine ⟨?_, ?_⟩
            · rw [he]
              simp
            · intro s' hok
              have hseq : { s with main := rest,
                                   entries := eraseE s.entries v } = s' := by
                have h2 := he.symm.trans hok
                injection h2
              subst hseq
              refine
                { small_eq := rfl
                  ghost_eq := rfl
                  scap_eq := rfl
                  mcap_eq := rfl
                  gcap_eq := rfl
                  mlen := by
                    show rest.length ≤ s.mainCap
                    omega
                  mnd := hnd.2
                  knd := (keysOf_eraseE_sublist _ _).nodup pre.knd
                  ksub := fun j hj => (mem_keysOf_eraseE.mp hj).1
                  cover := ?_
                  msub := ?_
                  psurv := ?_
                  gsurv := ?_
                  mold := ?_
                  fB := fun p hp => pre.fB p (mem_eraseE hp)
                  phile := ?_ }
              · intro j hj
                obtain ⟨hj1, hj2⟩ := mem_keysOf_eraseE.mp hj
                rcases pre.cover j hj1 with h | h
                · left
                  exact h
                · right
                  rw [hm] at h
                  rcases List.mem_cons.mp h with h1 | h1
                  · exact absurd h1 hj2
                  · exact h1
              · intro j hj
                have hj' : j ∈ rest := hj
                have hjm : j ∈ s.main := by
                  rw [hm]
                  exact List.mem_cons_of_mem _ hj'
                rcases pre.msub j hjm with h1 | h1
                · left
                  show j ∈ keysOf (eraseE s.entries v)
                  exact mem_keysOf_eraseE.mpr
                    ⟨h1, fun he2 => hnd.1 (he2 ▸ hj')⟩
                · right
                  exact h1
              · intro j hPj hj
                show j ∈ keysOf (eraseE s.entries v)
                exact mem_keysOf_eraseE.mpr
                  ⟨hj, fun he2 => pre.hP j hPj (he2 ▸ hvmem)⟩
              · intro j hg hjm
                rw [hm] at hjm
                rcases List.mem_cons.mp hjm with h1 | h1
                · exact absurd (h1 ▸ hvkeys) (pre.gph j hg)
                · exact h1
              · intro j hj
                have hj' : j ∈ rest := hj
                rw [hm]
                exact List.mem_cons_of_mem _ hj'
              · have e1 : phi { s with main := rest,
                                       entries := eraseE s.entries v } =
                    phiL s.entries rest := by
                  show phiL (eraseE s.entries v) rest = _
                  exact phiL_eraseE_not_mem hnd.1
                rw [e1, eqC]
                omega
          · -- hot victim: decrement, reinsert, keep sweeping
            have hpv1 : 1 ≤ pv.2 := Nat.one_le_iff_ne_zero.mpr hz
            have hpv3 : pv.2 ≤ 3 := lookup_le3 pre.fB hv
            have hdec : decFreq pv.2 = pv.2 - 1 :=
              decFreq_eq hpv1 (by omega)
            have preRec := preM_step_of_preE pre hm hv hz
            have eqA : phi { s with main := rest,
                                    entries := setFreq s.entries v (decFreq pv.2) } =
                phiL s.entries rest := by
              show phiL (setFreq s.entries v (decFreq pv.2)) rest = _
              exact phiL_setFreq_not_mem hnd.1
            have eqB : freqOf (setFreq s.entries v (decFreq pv.2)) v =
                pv.2 - 1 := by
              rw [freqOf_setFreq_self hvkeys, hdec]
            have hfuelRec : fuelFor { s with main := rest,
                                             entries := setFreq s.entries v (decFreq pv.2) } v ≤
                fuel := by
              unfold fuelFor
              show phi { s with main := rest,
                                entries := setFreq s.entries v (decFreq pv.2) } +
                  freqOf (setFreq s.entries v (decFreq pv.2)) v + 2 ≤ fuel
              rw [eqA, eqB]
              rw [eqC] at hfuel
              omega
            obtain ⟨hnf1, hpost1⟩ := ihM _ v P g preRec hfuelRec
            cases hrec : insert_m fuel { s with main := rest,
                                                entries := setFreq s.entries v (decFreq pv.2) } v with
            | fuelOut => exact absurd hrec hnf1
            | panicked =>
              have he : evict_m (fuel + 1) s = Res.panicked := by
                simp [evict_m, hm, hv, hz, hrec]
              refine ⟨?_, ?_⟩
              · rw [he]
                simp
              · intro s' hok
                rw [he] at hok
                exact absurd hok (by simp)
            | ok s2 =>
              have he : evict_m (fuel + 1) s = evict_m fuel s2 := by
                simp [evict_m, hm, hv, hz, hrec]
              have post1 := hpost1 s2 hrec
              have preE2 := preE_of_postM preRec post1
              have hphi1 : phi s2 ≤ phi { s with main := rest,
                                                 entries := setFreq s.entries v (decFreq pv.2) } +
                  freqOf (setFreq s.entries v (decFreq pv.2)) v :=
                post1.phile
              rw [eqA, eqB] at hphi1
              have hfuelE : phi s2 + 2 ≤ fuel := by
                rw [eqC] at hfuel
                omega
              obtain ⟨hnf2, hpost2⟩ := ihE s2 P g preE2 hfuelE
              refine ⟨?_, ?_⟩
              · rw [he]
                exact hnf2
              · intro s' hok
                rw [he] at hok
                have post2 := hpost2 s' hok
                refine
                  { small_eq := post2.small_eq.trans post1.small_eq
                    ghost_eq := post2.ghost_eq.trans post1.ghost_eq
                    scap_eq := post2.scap_eq.trans post1.scap_eq
                    mcap_eq := post2.mcap_eq.trans post1.mcap_eq
                    gcap_eq := post2.gcap_eq.trans post1.gcap_eq
                    mlen := ?_
                    mnd := post2.mnd
                    knd := post2.knd
                    ksub := ?_
                    cover := post2.cover
                    msub := post2.msub
                    psurv := ?_
                    gsurv := ?_
                    mold := ?_
                    fB := post2.fB
                    phile := ?_ }
                · have h1 := post2.mlen
                  rw [post1.mcap_eq] at h1
                  exact h1
                · intro j hj
                  have h1 : j ∈ keysOf (setFreq s.entries v
                      (decFreq pv.2)) := post1.ksub j (post2.ksub j hj)
                  rwa [keysOf_setFreq] at h1
                · intro j hPj hj
                  have h1 : j ∈ keysOf (setFreq s.entries v
                      (decFreq pv.2)) := by
                    rw [keysOf_setFreq]
                    exact hj
                  exact post2.psurv j hPj (post1.psurv j hPj h1)
                · intro j hg hjm
                  apply post2.gsurv j hg
                  apply post1.gsurv j hg
                  left
                  show j ∈ rest
                  rw [hm] at hjm
                  rcases List.mem_cons.mp hjm with h1 | h1
                  · exact absurd (h1 ▸ hvkeys) (pre.gph j hg)
                  · exact h1
                · intro j hj
                  rcases post1.mold j (post2.mold j hj) with h1 | h1
                  · have h2 : j ∈ rest := h1
                    rw [hm]
                    exact List.mem_cons_of_mem _ h2
                  · rw [hm, h1]
                    exact List.mem_cons_self _ _
                · have h1 := post2.phile
                  rw [eqC]
                  omega

/-- `insert_m` and `evict_m` never touch the small queue, the ghost
queue, or any capacity, on any state whatsoever. -/
theorem fields_spec : ∀ fuel : Nat,
    (∀ (s : Cache K V) (k : K) (s' : Cache K V),
      insert_m fuel s k = Res.ok s' →
      s'.small = s.small ∧ s'.ghost = s.ghost ∧ s'.smallCap = s.smallCap ∧
      s'.mainCap = s.mainCap ∧ s'.ghostCap = s.ghostCap) ∧
    (∀ (s s' : Cache K V),
      evict_m fuel s = Res.ok s' →
      s'.small = s.small ∧ s'.ghost = s.ghost ∧ s'.smallCap = s.smallCap ∧
      s'.mainCap = s.mainCap ∧ s'.ghostCap = s.ghostCap) := by
  intro fuel
  induction fuel with
  | zero =>
    constructor
    · intro s k s' h
      simp [insert_m] at h
    · intro s s' h
      simp [evict_m] at h
  | succ fuel ih =>
    obtain ⟨ihM, ihE⟩ := ih
    constructor
    · intro s k s' h
      simp only [insert_m] at h
      split at h
      · cases h
        exact ⟨rfl, rfl, rfl, rfl, rfl⟩
      · split at h
        · cases h
        · split at h
          · cases h
            exact ⟨rfl, rfl, rfl, rfl, rfl⟩
          · split at h
            next s2 hrec =>
              obtain ⟨e1, e2, e3, e4, e5⟩ := ihM _ _ _ hrec
              obtain ⟨f1, f2, f3, f4, f5⟩ := ihE _ _ h
              exact ⟨f1.trans e1, f2.trans e2, f3.trans e3,
                f4.trans e4, f5.trans e5⟩
            next r2 hne =>
              exact (hne _ h).elim
    · intro s s' h
      simp only [evict_m] at h
      split at h
      · cases h
        exact ⟨rfl, rfl, rfl, rfl, rfl⟩
      · split at h
        · cases h
        · split at h
          · cases h
            exact ⟨rfl, rfl, rfl, rfl, rfl⟩
          · split at h
            next s2 hrec =>
              obtain ⟨e1, e2, e3, e4, e5⟩ := ihM _ _ _ hrec
              obtain ⟨f1, f2, f3, f4, f5⟩ := ihE _ _ h
              exact ⟨f1.trans e1, f2.trans e2, f3.trans e3,
                f4.trans e4, f5.trans e5⟩
            next r2 hne =>
              exact (hne _ h).elim

theorem Inv.scap1 {c : Nat} {s : Cache K V} (inv : Inv c s) :
    1 ≤ s.smallCap := by
  rw [inv.scap_eq]
  exact le_max_right _ _

theorem Inv.mcap1 {c : Nat} {s : Cache K V} (inv : Inv c s) :
    1 ≤ s.mainCap := by
  rw [inv.mcap_eq]
  exact le_max_right _ _

theorem inv_mkCache (c : Nat) : Inv c (mkCache K V c) := by
  refine
    { scap_eq := rfl
      mcap_eq := rfl
      gcap_eq := rfl
      slen := by simp [mkCache]
      mlen := by simp [mkCache]
      snd := by simp [mkCache]
      mnd := by simp [mkCache]
      knd := by simp [mkCache, keysOf]
      disj := by simp [mkCache]
      agree1 := by simp [mkCache, keysOf]
      agree2s := by simp [mkCache]
      agree2m := by simp [mkCache]
      freqB := by simp [mkCache]
      ghostMain := by simp [mkCache] }

theorem not_mem_keys_of_not_contains {l : List (K × V × Nat)} {k : K}
    (h : ¬ containsE l k = true) : k ∉ keysOf l := by
  intro hm
  obtain ⟨pv, hpv⟩ := lookupE_isSome_of_mem hm
  unfold containsE at h
  rw [hpv] at h
  simp at h

theorem mem_ghost_push {cap : Nat} {g : List K} {w j : K}
    (h : j ∈ ghost_push cap g w) : j ∈ g ∨ j = w := by
  simp only [ghost_push] at h
  split at h
  · split at h
    · exact Or.inl ((List.dropLast_sublist (l := g)).subset h)
    · rcases List.mem_append.mp h with h1 | h1
      · exact Or.inl ((List.dropLast_sublist (l := g)).subset h1)
      · simp at h1
        exact Or.inr h1
  · split at h
    · exact Or.inl h
    · rcases List.mem_append.mp h with h1 | h1
      · exact Or.inl h1
      · simp at h1
        exact Or.inr h1

/-- `lookup` preserves the invariant. -/
theorem get_inv {c : Nat} {s : Cache K V} (inv : Inv c s) (k : K) :
    Inv c (Cache.get s k).2 := by
  cases hv : lookupE s.entries k with
  | none =>
    have he : (Cache.get s k).2 = s := by
      simp [Cache.get, hv]
    rw [he]
    exact inv
  | some pv =>
    by_cases h3 : pv.2 < maxFreqLimit
    · have he : (Cache.get s k).2 =
          { s with entries := setFreq s.entries k (pv.2 + 1) } := by
        simp [Cache.get, hv, h3]
      rw [he]
      have hkeys : keysOf (setFreq s.entries k (pv.2 + 1)) =
          keysOf s.entries := keysOf_setFreq _ _ _
      refine
        { scap_eq := inv.scap_eq
          mcap_eq := inv.mcap_eq
          gcap_eq := inv.gcap_eq
          slen := inv.slen
          mlen := inv.mlen
          snd := inv.snd
          mnd := inv.mnd
          knd := by
            show (keysOf (setFreq s.entries k (pv.2 + 1))).Nodup
            rw [hkeys]
            exact inv.knd
          disj := inv.disj
          agree1 := ?_
          agree2s := ?_
          agree2m := ?_
          freqB := ?_
          ghostMain := ?_ }
      · intro j hj
        have hj' : j ∈ keysOf (setFreq s.entries k (pv.2 + 1)) := hj
        rw [hkeys] at hj'
        exact inv.agree1 j hj'
      · intro j hj
        show j ∈ keysOf (setFreq s.entries k (pv.2 + 1))
        rw [hkeys]
        exact inv.agree2s j hj
      · intro j hj
        show j ∈ keysOf (setFreq s.entries k (pv.2 + 1))
        rw [hkeys]
        exact inv.agree2m j hj
      · intro p hp
        rcases mem_setFreq hp with h | h
        · rw [h]
          unfold maxFreqLimit at h3
          omega
        · exact inv.freqB p h
      · intro j hjg hj
        have hj' : j ∈ keysOf (setFreq s.entries k (pv.2 + 1)) := hj
        rw [hkeys] at hj'
        exact inv.ghostMain j hjg hj'
    · have he : (Cache.get s k).2 = s := by
        simp [Cache.get, hv, h3]
      rw [he]
      exact inv

/-- `insert` never exhausts its fuel, and preserves the invariant. -/
theorem insert_spec {c : Nat} {s : Cache K V} (inv : Inv c s) (k : K)
    (v : V) :
    Cache.insert s k v ≠ Res.fuelOut ∧
    ∀ b s', Cache.insert s k v = Res.ok (b, s') → Inv c s' := by
  by_cases hc : containsE s.entries k = true
  · -- already present: nothing happens
    have he : Cache.insert s k v = Res.ok (false, s) := by
      simp [Cache.insert, hc]
    refine ⟨by rw [he]; simp, ?_⟩
    intro b s' hok
    rw [he] at hok
    have h2 : (false, s) = (b, s') := by injection hok
    injection h2 with hb hs
    rw [← hs]
    exact inv
  · have hknot : k ∉ keysOf s.entries := not_mem_keys_of_not_contains hc
    have hknotm : k ∉ s.main := fun h => hknot (inv.agree2m k h)
    have hknots : k ∉ s.small := fun h => hknot (inv.agree2s k h)
    by_cases hg : k ∈ s.ghost
    · -- ghost hit: admit straight to main
      have preM : PreM s k (fun j => j ∈ s.small) (some k) :=
        { mcap := inv.mcap1
          mlen := inv.mlen
          mnd := inv.mnd
          knotm := hknotm
          knd := inv.knd
          hP := fun j hj =>
            ⟨inv.disj j hj, fun he2 => hknots (he2 ▸ hj)⟩
          cover := fun j hj => Or.inr (inv.agree1 j hj)
          msub := fun j hj => Or.inl (inv.agree2m j hj)
          gph := fun j hj => by
            have : k = j := by injection hj
            rw [← this]
            exact hknot
          pend := Or.inr rfl
          fB := inv.freqB }
      obtain ⟨hnf, hpost⟩ :=
        (admission_spec (fuelFor s k)).1 s k _ _ preM (le_refl _)
      cases hrec : insert_m (fuelFor s k) s k with
      | fuelOut => exact absurd hrec hnf
      | panicked =>
        have he : Cache.insert s k v = Res.panicked := by
          simp [Cache.insert, hc, hg, hrec]
        refine ⟨by rw [he]; simp, ?_⟩
        intro b s' hok
        rw [he] at hok
        exact absurd hok (by simp)
      | ok s1 =>
        have post := hpost s1 hrec
        have he : Cache.insert s k v =
            Res.ok (true, { s1 with entries := insertE s1.entries k v }) := by
          simp [Cache.insert, hc, hg, hrec]
        refine ⟨by rw [he]; simp, ?_⟩
        intro b s' hok
        rw [he] at hok
        have h2 : (true, { s1 with entries := insertE s1.entries k v }) =
            (b, s') := by injection hok
        injection h2 with hb hs
        rw [← hs]
        have hkm : k ∈ s1.main := post.gsurv k rfl (Or.inr rfl)
        refine
          { scap_eq := post.scap_eq.trans inv.scap_eq
            mcap_eq := post.mcap_eq.trans inv.mcap_eq
            gcap_eq :=
              post.gcap_eq.trans (inv.gcap_eq.trans post.mcap_eq.symm)
            slen := ?_
            mlen := ?_
            snd := ?_
            mnd := post.mnd
            knd := nodup_keysOf_insertE post.knd
            disj := ?_
            agree1 := ?_
            agree2s := ?_
            agree2m := ?_
            freqB := ?_
            ghostMain := ?_ }
        · show s1.small.length ≤ s1.smallCap
          rw [post.small_eq, post.scap_eq]
          exact inv.slen
        · show s1.main.length ≤ s1.mainCap
          rw [post.mcap_eq]
          exact post.mlen
        · show s1.small.Nodup
          rw [post.small_eq]
          exact inv.snd
        · intro j hjs hjm
          have hjs' : j ∈ s.small := by
            rw [← post.small_eq]
            exact hjs
          rcases post.mold j hjm with h | h
          · exact inv.disj j hjs' h
          · rw [h] at hjs'
            exact hknots hjs'
        · intro j hj
          rcases mem_keysOf_insertE.mp hj with h | h
          · rcases post.cover j h with h1 | h1
            · left
              show j ∈ s1.small
              rw [post.small_eq]
              exact h1
            · right
              exact h1
          · right
            rw [h]
            exact hkm
        · intro j hj
          have hjs' : j ∈ s.small := by
            rw [← post.small_eq]
            exact hj
          have h1 : j ∈ keysOf s1.entries :=
            post.psurv j hjs' (inv.agree2s j hjs')
          show j ∈ keysOf (insertE s1.entries k v)
          exact mem_keysOf_insertE.mpr (Or.inl h1)
        · intro j hj
          show j ∈ keysOf (insertE s1.entries k v)
          rcases post.msub j hj with h1 | h1
          · exact mem_keysOf_insertE.mpr (Or.inl h1)
          · have hkj : k = j := by injection h1
            exact mem_keysOf_insertE.mpr (Or.inr hkj.symm)
        · intro p hp
          have hp' : p ∈ eraseE s1.entries k ++ [(k, v, 0)] := hp
          rcases List.mem_append.mp hp' with h | h
          · exact post.fB p (mem_eraseE h)
          · simp at h
            rw [h]
            simp
        · intro j hjg hj
          have hjg' : j ∈ s.ghost := by
            rw [← post.ghost_eq]
            exact hjg
          rcases mem_keysOf_insertE.mp hj with h | h
          · have hjk : j ∈ keysOf s.entries := post.ksub j h
            have hjm : j ∈ s.main := inv.ghostMain j hjg' hjk
            rcases post.cover j h with h1 | h1
            · exact absurd hjm (inv.disj j h1)
            · exact h1
          · rw [h]
            exact hkm
    · -- ghost miss: admit to small
      by_cases hslt : s.small.length < s.smallCap
      · -- small queue not full: plain push
        have hpushS : push_overwrite s.smallCap s.small k =
            (s.small ++ [k], none) := by
          simp [push_overwrite, hslt]
        have hes : insert_s s k =
            Res.ok { s with small := s.small ++ [k] } := by
          simp [insert_s, hpushS]
        have he : Cache.insert s k v = Res.ok (true,
            { s with small := s.small ++ [k],
                     entries := insertE s.entries k v }) := by
          simp [Cache.insert, hc, hg, hes]
        refine ⟨by rw [he]; simp, ?_⟩
        intro b s' hok
        rw [he] at hok
        have h2 : (true, ({ s with small := s.small ++ [k],
                                   entries := insertE s.entries k v } : Cache K V)) =
            (b, s') := by injection hok
        injection h2 with hb hs
        rw [← hs]
        refine
          { scap_eq := inv.scap_eq
            mcap_eq := inv.mcap_eq
            gcap_eq := inv.gcap_eq
            slen := by
              show (s.small ++ [k]).length ≤ s.smallCap
              simp
              omega
            mlen := inv.mlen
            snd := nodup_snoc inv.snd hknots
            mnd := inv.mnd
            knd := nodup_keysOf_insertE inv.knd
            disj := ?_
            agree1 := ?_
            agree2s := ?_
            agree2m := ?_
            freqB := ?_
            ghostMain := ?_ }
        · intro j hjs hjm
          have hjs' : j ∈ s.small ++ [k] := hjs
          rcases List.mem_append.mp hjs' with h | h
          · exact inv.disj j h hjm
          · simp at h
            rw [h] at hjm
            exact hknotm hjm
        · intro j hj
          rcases mem_keysOf_insertE.mp hj with h | h
          · rcases inv.agree1 j h with h1 | h1
            · left
              exact List.mem_append_left _ h1
            · right
              exact h1
          · left
            rw [h]
            exact List.mem_append_right _ (by simp)
        · intro j hj
          have hjs' : j ∈ s.small ++ [k] := hj
          show j ∈ keysOf (insertE s.entries k v)
          rcases List.mem_append.mp hjs' with h | h
          · exact mem_keysOf_insertE.mpr (Or.inl (inv.agree2s j h))
          · simp at h
            exact mem_keysOf_insertE.mpr (Or.inr h)
        · intro j hj
          show j ∈ keysOf (insertE s.entries k v)
          exact mem_keysOf_insertE.mpr (Or.inl (inv.agree2m j hj))
        · intro p hp
          have hp' : p ∈ eraseE s.entries k ++ [(k, v, 0)] := hp
          rcases List.mem_append.mp hp' with h | h
          · exact inv.freqB p (mem_eraseE h)
          · simp at h
            rw [h]
            simp
        · intro j hjg hj
          rcases mem_keysOf_insertE.mp hj with h | h
          · exact inv.ghostMain j hjg h
          · rw [h] at hjg
            exact absurd hjg hg
      · -- small queue full: evict its head w
        cases hsm : s.small with
        | nil =>
          exfalso
          rw [hsm] at hslt
          simp at hslt
          have := inv.scap1
          omega
        | cons w tail =>
          have hslt2 : ¬ (w :: tail).length < s.smallCap := by
            rw [← hsm]
            exact hslt
          have hpushS : push_overwrite s.smallCap s.small k =
              (tail ++ [k], some w) := by
            rw [hsm]
            unfold push_overwrite
            rw [if_neg hslt2]
          have hwmem : w ∈ s.small := by
            rw [hsm]
            exact List.mem_cons_self _ _
          have hwkeys : w ∈ keysOf s.entries := inv.agree2s w hwmem
          obtain ⟨pw, hw⟩ := lookupE_isSome_of_mem hwkeys
          have hsnd := inv.snd
          rw [hsm, List.nodup_cons] at hsnd
          have hktail : k ∉ tail := fun h =>
            hknots (by rw [hsm]; exact List.mem_cons_of_mem _ h)
          have hkw : k ≠ w := fun h => hknots (h ▸ hwmem)
          have hwnotm : w ∉ s.main := inv.disj w hwmem
          have hslen : tail.length + 1 ≤ s.smallCap := by
            have h := inv.slen
            rw [hsm] at h
            simpa using h
          by_cases hz : pw.2 = 0
          · -- cold victim: drop from the table, remember in ghost
            have hes : insert_s s k = Res.ok
                { s with small := tail ++ [k],
                         entries := eraseE s.entries w,
                         ghost := ghost_push s.ghostCap s.ghost w } := by
              simp [insert_s, hpushS, hw, hz]
            have he : Cache.insert s k v = Res.ok (true,
                { s with small := tail ++ [k],
                         entries := insertE (eraseE s.entries w) k v,
                         ghost := ghost_push s.ghostCap s.ghost w }) := by
              simp [Cache.insert, hc, hg, hes]
            refine ⟨by rw [he]; simp, ?_⟩
            intro b s' hok
            rw [he] at hok
            have h2 : (true, ({ s with small := tail ++ [k],
                                       entries := insertE (eraseE s.entries w) k v,
                                       ghost := ghost_push s.ghostCap s.ghost w } : Cache K V)) =
                (b, s') := by injection hok
            injection h2 with hb hs
            rw [← hs]
            refine
              { scap_eq := inv.scap_eq
                mcap_eq := inv.mcap_eq
                gcap_eq := inv.gcap_eq
                slen := by
                  show (tail ++ [k]).length ≤ s.smallCap
                  simpa using hslen
                mlen := inv.mlen
                snd := nodup_snoc hsnd.2 hktail
                mnd := inv.mnd
                knd := nodup_keysOf_insertE
                  ((keysOf_eraseE_sublist _ _).nodup inv.knd)
                disj := ?_
                agree1 := ?_
                agree2s := ?_
                agree2m := ?_
                freqB := ?_
                ghostMain := ?_ }
            · intro j hjs hjm
              have hjs' : j ∈ tail ++ [k] := hjs
              rcases List.mem_append.mp hjs' with h | h
              · exact inv.disj j
                  (by rw [hsm]; exact List.mem_cons_of_mem _ h) hjm
              · simp at h
                rw [h] at hjm
                exact hknotm hjm
            · intro j hj
              rcases mem_keysOf_insertE.mp hj with h | h
              · obtain ⟨h1, h2⟩ := mem_keysOf_eraseE.mp h
                rcases inv.agree1 j h1 with h3 | h3
                · rw [hsm] at h3
                  rcases List.mem_cons.mp h3 with h4 | h4
                  · exact absurd h4 h2
                  · left
                    exact List.mem_append_left _ h4
                · right
                  exact h3
              · left
                rw [h]
                exact List.mem_append_right _ (by simp)
            · intro j hj
              have hj' : j ∈ tail ++ [k] := hj
              show j ∈ keysOf (insertE (eraseE s.entries w) k v)
              rcases List.mem_append.mp hj' with h | h
              · refine mem_keysOf_insertE.mpr (Or.inl ?_)
                exact mem_keysOf_eraseE.mpr
                  ⟨inv.agree2s j
                    (by rw [hsm]; exact List.mem_cons_of_mem _ h),
                   fun he2 => hsnd.1 (he2 ▸ h)⟩
              · simp at h
                exact mem_keysOf_insertE.mpr (Or.inr h)
            · intro j hj
              show j ∈ keysOf (insertE (eraseE s.entries w) k v)
              refine mem_keysOf_insertE.mpr (Or.inl ?_)
              exact mem_keysOf_eraseE.mpr
                ⟨inv.agree2m j hj, fun he2 => hwnotm (he2 ▸ hj)⟩
            · intro p hp
              have hp' : p ∈ eraseE (eraseE s.entries w) k ++
                  [(k, v, 0)] := hp
              rcases List.mem_append.mp hp' with h | h
              · exact inv.freqB p (mem_eraseE (mem_eraseE h))
              · simp at h
                rw [h]
                simp
            · intro j hjg hj
              rcases mem_ghost_push hjg with h | h
              · rcases mem_keysOf_insertE.mp hj with h1 | h1
                · obtain ⟨h2, h3⟩ := mem_keysOf_eraseE.mp h1
                  exact inv.ghostMain j h h2
                · rw [h1] at h
                  exact absurd h hg
              · rcases mem_keysOf_insertE.mp hj with h1 | h1
                · obtain ⟨h2, h3⟩ := mem_keysOf_eraseE.mp h1
                  exact absurd h h3
                · rw [h1] at h
                  exact (hkw h).elim
          · -- hot victim: reset its freq and promote it to main
            have hes : insert_s s k = insert_m
                (fuelFor { s with small := tail ++ [k],
                                  entries := setFreq s.entries w 0 } w)
                { s with small := tail ++ [k],
                         entries := setFreq s.entries w 0 } w := by
              simp [insert_s, hpushS, hw, hz]
            have preM : PreM { s with small := tail ++ [k],
                                      entries := setFreq s.entries w 0 } w
                (fun j => j ∈ tail ++ [k]) none := by
              refine
                { mcap := inv.mcap1
                  mlen := inv.mlen
                  mnd := inv.mnd
                  knotm := hwnotm
                  knd := by
                    show (keysOf (setFreq s.entries w 0)).Nodup
                    rw [keysOf_setFreq]
                    exact inv.knd
                  hP := ?_
                  cover := ?_
                  msub := ?_
                  gph := fun j h => Option.noConfusion h
                  pend := Or.inl (by
                    show w ∈ keysOf (setFreq s.entries w 0)
                    rw [keysOf_setFreq]
                    exact hwkeys)
                  fB := ?_ }
              · intro j hj
                constructor
                · rcases List.mem_append.mp hj with h | h
                  · exact inv.disj j
                      (by rw [hsm]; exact List.mem_cons_of_mem _ h)
                  · simp at h
                    rw [h]
                    exact hknotm
                · rcases List.mem_append.mp hj with h | h
                  · exact fun he2 => hsnd.1 (he2 ▸ h)
                  · simp at h
                    rw [h]
                    exact hkw
              · intro j hj
                have hj' : j ∈ keysOf s.entries := by
                  have h2 : j ∈ keysOf (setFreq s.entries w 0) := hj
                  rwa [keysOf_setFreq] at h2
                rcases inv.agree1 j hj' with h | h
                · rw [hsm] at h
                  rcases List.mem_cons.mp h with h1 | h1
                  · left
                    exact h1
                  · right
                    left
                    exact List.mem_append_left _ h1
                · right
                  right
                  exact h
              · intro j hj
                left
                show j ∈ keysOf (setFreq s.entries w 0)
                rw [keysOf_setFreq]
                exact inv.agree2m j hj
              · intro p hp
                rcases mem_setFreq hp with h | h
                · rw [h]
                  simp
                · exact inv.freqB p h
            obtain ⟨hnf, hpost⟩ :=
              (admission_spec (fuelFor { s with small := tail ++ [k],
                                                entries := setFreq s.entries w 0 } w)).1 _ w _ _ preM
                (le_refl _)
            cases hrec : insert_m (fuelFor { s with small := tail ++ [k],
                                                    entries := setFreq s.entries w 0 } w)
                { s with small := tail ++ [k],
                         entries := setFreq s.entries w 0 } w with
            | fuelOut => exact absurd hrec hnf
            | panicked =>
              have he : Cache.insert s k v = Res.panicked := by
                simp [Cache.insert, hc, hg, hes, hrec]
              refine ⟨by rw [he]; simp, ?_⟩
              intro b s' hok
              rw [he] at hok
              exact absurd hok (by simp)
            | ok s1 =>
              have post := hpost s1 hrec
              have he : Cache.insert s k v = Res.ok (true,
                  { s1 with entries := insertE s1.entries k v }) := by
                simp [Cache.insert, hc, hg, hes, hrec]
              refine ⟨by rw [he]; simp, ?_⟩
              intro b s' hok
              rw [he] at hok
              have h2 : (true, ({ s1 with
                  entries := insertE s1.entries k v } : Cache K V)) =
                  (b, s') := by injection hok
              injection h2 with hb hs
              rw [← hs]
              have hsmall1 : s1.small = tail ++ [k] := post.small_eq
              have hghost1 : s1.ghost = s.ghost := post.ghost_eq
              refine
                { scap_eq := post.scap_eq.trans inv.scap_eq
                  mcap_eq := post.mcap_eq.trans inv.mcap_eq
                  gcap_eq := post.gcap_eq.trans
                    (inv.gcap_eq.trans post.mcap_eq.symm)
                  slen := ?_
                  mlen := ?_
                  snd := ?_
                  mnd := post.mnd
                  knd := nodup_keysOf_insertE post.knd
                  disj := ?_
                  agree1 := ?_
                  agree2s := ?_
                  agree2m := ?_
                  freqB := ?_
                  ghostMain := ?_ }
              · show s1.small.length ≤ s1.smallCap
                rw [hsmall1, post.scap_eq]
                simpa using hslen
              · show s1.main.length ≤ s1.mainCap
                rw [post.mcap_eq]
                exact post.mlen
              · show s1.small.Nodup
                rw [hsmall1]
                exact nodup_snoc hsnd.2 hktail
              · intro j hjs hjm
                have hjs' : j ∈ tail ++ [k] := by
                  rw [← hsmall1]
                  exact hjs
                rcases post.mold j hjm with h | h
                · have h' : j ∈ s.main := h
                  rcases List.mem_append.mp hjs' with h1 | h1
                  · exact inv.disj j
                      (by rw [hsm]; exact List.mem_cons_of_mem _ h1) h'
                  · simp at h1
                    rw [h1] at h'
                    exact hknotm h'
                · rcases List.mem_append.mp hjs' with h1 | h1
                  · exact hsnd.1 (h ▸ h1)
                  · simp at h1
                    rw [h1] at h
                    exact (hkw h).elim
              · intro j hj
                rcases mem_keysOf_insertE.mp hj with h | h
                · rcases post.cover j h with h1 | h1
                  · left
                    show j ∈ s1.small
                    rw [hsmall1]
                    exact h1
                  · right
                    exact h1
                · left
                  show j ∈ s1.small
                  rw [hsmall1, h]
                  exact List.mem_append_right _ (by simp)
              · intro j hj
                have hjs' : j ∈ tail ++ [k] := by
                  rw [← hsmall1]
                  exact hj
                show j ∈ keysOf (insertE s1.entries k v)
                rcases List.mem_append.mp hjs' with h | h
                · have hPj : j ∈ tail ++ [k] := List.mem_append_left _ h
                  have hkt : j ∈ keysOf (setFreq s.entries w 0) := by
                    rw [keysOf_setFreq]
                    exact inv.agree2s j
                      (by rw [hsm]; exact List.mem_cons_of_mem _ h)
                  exact mem_keysOf_insertE.mpr
                    (Or.inl (post.psurv j hPj hkt))
                · simp at h
                  exact mem_keysOf_insertE.mpr (Or.inr h)
              · intro j hj
                show j ∈ keysOf (insertE s1.entries k v)
                rcases post.msub j hj with h | h
                · exact mem_keysOf_insertE.mpr (Or.inl h)
                · exact Option.noConfusion h
              · intro p hp
                have hp' : p ∈ eraseE s1.entries k ++ [(k, v, 0)] := hp
                rcases List.mem_append.mp hp' with h | h
                · exact post.fB p (mem_eraseE h)
                · simp at h
                  rw [h]
                  simp
              · intro j hjg hj
                have hjg' : j ∈ s.ghost := by
                  rw [← hghost1]
                  exact hjg
                rcases mem_keysOf_insertE.mp hj with h | h
                · have hjkt : j ∈ keysOf s.entries := by
                    have h2 : j ∈ keysOf (setFreq s.entries w 0) :=
                      post.ksub j h
                    rwa [keysOf_setFreq] at h2
                  have hjm : j ∈ s.main := inv.ghostMain j hjg' hjkt
                  rcases post.cover j h with h1 | h1
                  · rcases List.mem_append.mp h1 with h2 | h2
                    · exact absurd hjm (inv.disj j
                        (by rw [hsm]; exact List.mem_cons_of_mem _ h2))
                    · simp at h2
                      rw [h2] at hjkt
                      exact absurd hjkt hknot
                  · exact h1
                · rw [h] at hjg'
                  exact absurd hjg' hg

/-- Every reachable state satisfies the invariant. -/
theorem reach_inv {c : Nat} {s : Cache K V} (h : Reach c s) : Inv c s := by
  induction h with
  | init hc => exact inv_mkCache _
  | look k hr ih => exact get_inv ih k
  | ins k v b s' hr hok ih => exact (insert_spec ih k v).2 b s' hok

/-- Running a list of operations from a reachable state that ends normally
reaches a state. -/
theorem reach_run {c : Nat} {s s' : Cache K V} {ops : List (Op K V)}
    (hr : Reach c s) (h : runOps s ops = Res.ok s') : Reach c s' := by
  induction ops generalizing s with
  | nil =>
    simp [runOps] at h
    rw [← h]
    exact hr
  | cons o os ih =>
    simp only [runOps] at h
    cases ho : stepOp s o with
    | ok s1 =>
      rw [ho] at h
      refine ih ?_ h
      cases o with
      | ins kk vv =>
        simp only [stepOp] at ho
        cases hi : Cache.insert s kk vv with
        | ok p =>
          rw [hi] at ho
          have hps : p.2 = s1 := by
            simp at ho
            exact ho
          rw [← hps]
          exact Reach.ins kk vv p.1 p.2 hr (by rw [hi])
        | panicked =>
          rw [hi] at ho
          simp at ho
        | fuelOut =>
          rw [hi] at ho
          simp at ho
      | look kk =>
        simp only [stepOp] at ho
        have h2 : (Cache.get s kk).2 = s1 := by
          injection ho
        rw [← h2]
        exact Reach.look kk hr
    | panicked =>
      rw [ho] at h
      simp at h
    | fuelOut =>
      rw [ho] at h
      simp at h

/-! ### The claims -/

/-- C1: the spec claims `lookup` and `insert` are total on every state
reachable from `new(capacity ≥ 1)`.  The code violates this: from
`new(2)`, the sequence `insert 0`, `lookup 0`, `insert 1`, `insert 2`,
`lookup 0`, `insert 1` makes the final insert a ghost hit whose main-queue
admission recursion pops the newly inserted key 1 — which is not yet in
the entry table — and the `unwrap` of the entry lookup panics. -/
theorem c1_totality_panic :
    runOps (mkCache Nat Nat 2)
      [Op.ins 0 0, Op.look 0, Op.ins 1 1, Op.ins 2 2, Op.look 0,
       Op.ins 1 1] = Res.panicked := by
  decide

/-- C2 (counterexample): with capacity 1 the derived sizes are S = 1 and
M = max(1 − 1, 1) = 1, so S + M = 2 ≠ C; after `insert 0`, `lookup 0`,
`insert 1` the entry table holds 2 > 1 live entries. -/
theorem c2_capacity_cex :
    runOps (mkCache Nat Nat 1) [Op.ins 0 0, Op.look 0, Op.ins 1 1] =
      Res.ok c2state ∧ ¬ liveEntries c2state ≤ 1 :=
  ⟨by decide, by decide⟩

/-- C2 (amended): for every capacity c ≥ 2 (where S + M = c does hold by
construction) and every reachable state, the number of live entries in
the entry table is at most c. -/
theorem c2_capacity_bound :
    ∀ (c : Nat) (s : Cache K V), 2 ≤ c → Reach c s →
      liveEntries s ≤ c := by
  intro c s hc hr
  have inv := reach_inv hr
  have h1 : liveEntries s ≤ s.small.length + s.main.length :=
    length_le_of_cover inv.knd inv.agree1
  have h2 := inv.slen
  have h3 := inv.mlen
  rw [inv.scap_eq] at h2
  rw [inv.mcap_eq] at h3
  have hlt : c / 10 < c := Nat.div_lt_self (by omega) (by omega)
  omega

/-- C2 witness: the amended bound at capacity 2 on the initial state. -/
theorem c2_capacity_bound_witness :
    2 ≤ 2 ∧ Reach 2 (mkCache Nat Nat 2) ∧
      liveEntries (mkCache Nat Nat 2) ≤ 2 :=
  ⟨by decide, Reach.init 2 (by decide),
   c2_capacity_bound 2 (mkCache Nat Nat 2) (by decide)
     (Reach.init 2 (by decide))⟩

/-- C3 (counterexample): from `new(2)`, after `insert 0`, `insert 1`
(which demotes 0 to ghost), `insert 0` (a ghost hit readmitting 0 to
main without removing it from ghost), key 0 is simultaneously in the
ghost queue and in the entry table. -/
theorem c3_ghost_cex :
    runOps (mkCache Nat Nat 2) [Op.ins 0 0, Op.ins 1 1, Op.ins 0 5] =
      Res.ok c3state ∧ 0 ∈ c3state.ghost ∧ 0 ∈ keysOf c3state.entries :=
  ⟨by decide, by decide, by decide⟩

/-- C3 (amended): a key that is both in ghost and in the entry table can
only sit in the main queue (it got there through a ghost-hit readmission,
which does not remove the key from ghost); equivalently, ghost is always
disjoint from the small queue's entries. -/
theorem c3_ghost_main :
    ∀ (c : Nat) (s : Cache K V) (j : K), Reach c s → j ∈ s.ghost →
      j ∈ keysOf s.entries → j ∈ s.main :=
  fun _ _ j hr => (reach_inv hr).ghostMain j

/-- C3 witness: the amended property at the counterexample state. -/
theorem c3_ghost_main_witness :
    Reach 2 c3state ∧ 0 ∈ c3state.ghost ∧ 0 ∈ keysOf c3state.entries ∧
      0 ∈ c3state.main := by
  have hrun : runOps (mkCache Nat Nat 2)
      [Op.ins 0 0, Op.ins 1 1, Op.ins 0 5] = Res.ok c3state := by decide
  have hr : Reach 2 c3state :=
    reach_run (Reach.init 2 (by decide)) hrun
  exact ⟨hr, by decide, by decide,
    c3_ghost_main 2 c3state 0 hr (by decide) (by decide)⟩

/-- C10 (counterexample): `new(0)` does not behave like `new(1)`: the
subtraction `capacity − S` underflows (S = max(0/10, 1) = 1 > 0), so no
cache is produced at all — a panic in debug builds, an aborted
`usize::MAX` ring-buffer allocation in release builds. -/
theorem c10_new_zero_cex :
    Cache.new Nat Nat 0 = none ∧
    ¬ Cache.new Nat Nat 0 = Cache.new Nat Nat 1 :=
  ⟨by decide, by decide⟩

/-- C10 (amended): `new(0)` fails with an arithmetic underflow instead of
producing a cache, while `new(1)` succeeds and yields the configuration
S = 1, M = 1, G = 1. -/
theorem c10_new_zero :
    Cache.new Nat Nat 0 = none ∧
    Cache.new Nat Nat 1 = some (mkCache Nat Nat 1) ∧
    (mkCache Nat Nat 1).smallCap = 1 ∧ (mkCache Nat Nat 1).mainCap = 1 ∧
    (mkCache Nat Nat 1).ghostCap = 1 := by
  refine ⟨by decide, by decide, by decide, by decide, by decide⟩

/-- C4 (counterexample): one admission can remove TWO entries from the
entry table, not exactly one.  From `new(2)`, reach `c4pre` (keys 0 and 2
live, 0 hot in main); the single `insert 3` then removes both 0 and 2
and even leaves the main queue empty. -/
theorem c4_main_eviction_cex :
    runOps (mkCache Nat Nat 2)
      [Op.ins 0 0, Op.look 0, Op.ins 1 1, Op.look 0, Op.ins 2 2,
       Op.look 2] = Res.ok c4pre ∧
    0 ∈ keysOf c4pre.entries ∧ 2 ∈ keysOf c4pre.entries ∧
    Cache.insert c4pre 3 3 = Res.ok (true, c4post) ∧
    0 ∉ keysOf c4post.entries ∧ 2 ∉ keysOf c4post.entries ∧
    c4post.main = [] :=
  ⟨by decide, by decide, by decide, by decide, by decide, by decide,
   by decide⟩

/-- C4 (amended): on main-queue overflow, a victim with freq = 0 is
removed from the entry table and the admission completes with exactly
that one removal; a victim with freq > 0 has its freq decremented and is
reinserted at the tail, and after the recursive admission returns the
code additionally runs the `evict_m` sweep (which can remove further
entries); in no case does the main admission insert into ghost. -/
theorem c4_main_admission :
    (∀ (s : Cache K V) (k w : K) (rest : List K) (pv : V × Nat)
        (fuel : Nat),
      s.main = w :: rest → ¬ s.main.length < s.mainCap →
      lookupE s.entries w = some pv → pv.2 = 0 →
      insert_m (fuel + 1) s k =
        Res.ok { s with main := rest ++ [k],
                        entries := eraseE s.entries w }) ∧
    (∀ (s : Cache K V) (k w : K) (rest : List K) (pv : V × Nat)
        (fuel : Nat) (s2 : Cache K V),
      s.main = w :: rest → ¬ s.main.length < s.mainCap →
      lookupE s.entries w = some pv → pv.2 ≠ 0 →
      insert_m fuel { s with main := rest ++ [k],
                             entries := setFreq s.entries w (decFreq pv.2) } w =
        Res.ok s2 →
      insert_m (fuel + 1) s k = evict_m fuel s2) ∧
    (∀ (fuel : Nat) (s : Cache K V) (k : K) (s' : Cache K V),
      insert_m fuel s k = Res.ok s' → s'.ghost = s.ghost) := by
  refine ⟨?_, ?_, ?_⟩
  · intro s k w rest pv fuel hm hlt hw hz
    have hlt2 : ¬ (w :: rest).length < s.mainCap := by
      rw [← hm]
      exact hlt
    have hpush : push_overwrite s.mainCap s.main k =
        (rest ++ [k], some w) := by
      rw [hm]
      unfold push_overwrite
      rw [if_neg hlt2]
    simp [insert_m, hpush, hw, hz]
  · intro s k w rest pv fuel s2 hm hlt hw hz hrec
    have hlt2 : ¬ (w :: rest).length < s.mainCap := by
      rw [← hm]
      exact hlt
    have hpush : push_overwrite s.mainCap s.main k =
        (rest ++ [k], some w) := by
      rw [hm]
      unfold push_overwrite
      rw [if_neg hlt2]
    simp [insert_m, hpush, hw, hz, hrec]
  · intro fuel s k s' h
    exact ((fields_spec fuel).1 s k s' h).2.1

/-- C4 witness: the hot-victim case at a concrete full main queue — the
admission of key 2 over the hot resident 0 decrements 0, reinserts it at
the tail, and then runs the eviction sweep on the recursion result. -/
theorem c4_main_admission_witness :
    c4mid.main = 0 :: [] ∧ ¬ c4mid.main.length < c4mid.mainCap ∧
    lookupE c4mid.entries 0 = some (0, 1) ∧
    insert_m 2 { c4mid with main := [] ++ [2],
                            entries := setFreq c4mid.entries 0 (decFreq 1) } 0 =
      Res.ok c4mid2 ∧
    insert_m (2 + 1) c4mid 2 = evict_m 2 c4mid2 := by
  refine ⟨by decide, by decide, by decide, by decide, ?_⟩
  exact (@c4_main_admission Nat Nat _).2.1 c4mid 2 0 [] (0, 1) 2 c4mid2
    (by decide) (by decide) (by decide) (by decide) (by decide)

/-- C5 (counterexample): in the §8 scenario from `new(2)` — insert (0,1),
three lookups of 0, insert (1,2), insert (2,3) — key 0 sits in main with
freq 0, not freq 3: the small→main promotion reset its frequency. -/
theorem c5_scenario_cex :
    runOps (mkCache Nat Nat 2)
      [Op.ins 0 1, Op.look 0, Op.look 0, Op.look 0, Op.ins 1 2,
       Op.ins 2 3] = Res.ok c5state ∧
    0 ∈ c5state.main ∧ freqOf c5state.entries 0 = 0 ∧
    ¬ freqOf c5state.entries 0 = 3 :=
  ⟨by decide, by decide, by decide, by decide⟩

/-- C5 (amended): after the scenario, key 0 resides in the main queue
with freq 0 (reset on promotion), and it remains reachable via lookup
after three further admissions of fresh keys, which cycle through the
small queue only. -/
theorem c5_main_survival :
    ∀ k1 k2 k3 : Nat,
      ¬ k1 = 0 → ¬ k1 = 1 → ¬ k1 = 2 →
      ¬ k2 = 0 → ¬ k2 = 1 → ¬ k2 = 2 → ¬ k2 = k1 →
      ¬ k3 = 0 → ¬ k3 = 1 → ¬ k3 = 2 → ¬ k3 = k1 → ¬ k3 = k2 →
      0 ∈ c5state.main ∧ freqOf c5state.entries 0 = 0 ∧
      Cache.insert c5state k1 11 = Res.ok (true, c5after1 k1) ∧
      (Cache.get (c5after1 k1) 0).1 = some 1 ∧
      Cache.insert (c5after1 k1) k2 12 = Res.ok (true, c5after2 k1 k2) ∧
      (Cache.get (c5after2 k1 k2) 0).1 = some 1 ∧
      Cache.insert (c5after2 k1 k2) k3 13 =
        Res.ok (true, c5after3 k2 k3) ∧
      (Cache.get (c5after3 k2 k3) 0).1 = some 1 ∧
      0 ∈ (c5after3 k2 k3).main := by
  intro k1 k2 k3 h10 h11 h12 h20 h21 h22 h2k1 h30 h31 h32 h3k1 h3k2
  have n01 : ¬ (0 : Nat) = k1 := fun h => h10 h.symm
  have n21 : ¬ (2 : Nat) = k1 := fun h => h12 h.symm
  have n02 : ¬ (0 : Nat) = k2 := fun h => h20 h.symm
  have n22 : ¬ (2 : Nat) = k2 := fun h => h22 h.symm
  have nk12 : ¬ k1 = k2 := fun h => h2k1 h.symm
  have n03 : ¬ (0 : Nat) = k3 := fun h => h30 h.symm
  have n23 : ¬ (2 : Nat) = k3 := fun h => h32 h.symm
  have nk23 : ¬ k2 = k3 := fun h => h3k2 h.symm
  refine ⟨by decide, by decide, ?_, ?_, ?_, ?_, ?_, ?_, ?_⟩
  · simp [Cache.insert, insert_s, containsE, lookupE, push_overwrite,
      ghost_push, insertE, eraseE, c5state, c5after1, n01, n21, h11]
  · simp [Cache.get, lookupE, c5after1]
  · simp [Cache.insert, insert_s, containsE, lookupE, push_overwrite,
      ghost_push, insertE, eraseE, c5after1, c5after2, n01, n02, nk12,
      h2k1, n22, h21, h22]
  · simp [Cache.get, lookupE, c5after2, n02]
  · simp [Cache.insert, insert_s, containsE, lookupE, push_overwrite,
      ghost_push, insertE, eraseE, c5after2, c5after3, n02, n03, nk23,
      h3k2, n23, h3k1, h31, h32]
  · simp [Cache.get, lookupE, c5after3, n03]
  · simp [c5after3]

/-- C5 witness: the amended scenario with the fresh keys 10, 11, 12. -/
theorem c5_main_survival_witness :
    0 ∈ c5state.main ∧ freqOf c5state.entries 0 = 0 ∧
    Cache.insert c5state 10 11 = Res.ok (true, c5after1 10) ∧
    (Cache.get (c5after1 10) 0).1 = some 1 ∧
    Cache.insert (c5after1 10) 11 12 = Res.ok (true, c5after2 10 11) ∧
    (Cache.get (c5after2 10 11) 0).1 = some 1 ∧
    Cache.insert (c5after2 10 11) 12 13 =
      Res.ok (true, c5after3 11 12) ∧
    (Cache.get (c5after3 11 12) 0).1 = some 1 ∧
    0 ∈ (c5after3 11 12).main :=
  c5_main_survival 10 11 12 (by decide) (by decide) (by decide)
    (by decide) (by decide) (by decide) (by decide) (by decide)
    (by decide) (by decide) (by decide) (by decide)

/-- C6: lookup on a reachable state returns absent for a missing key; on
a present key it returns the stored value, bumps freq by exactly one when
freq < 3 and leaves it at 3 otherwise (so freq never decreases), and
mutates none of the three queues. -/
theorem c6_lookup :
    ∀ (c : Nat) (s : Cache K V) (k : K), Reach c s →
      (lookupE s.entries k = none → Cache.get s k = (none, s)) ∧
      (∀ (w : V) (f : Nat), lookupE s.entries k = some (w, f) →
        (Cache.get s k).1 = some w ∧
        freqOf (Cache.get s k).2.entries k =
          (if f < 3 then f + 1 else f) ∧
        f ≤ freqOf (Cache.get s k).2.entries k ∧
        (¬ f < 3 → freqOf (Cache.get s k).2.entries k = 3) ∧
        (Cache.get s k).2.small = s.small ∧
        (Cache.get s k).2.main = s.main ∧
        (Cache.get s k).2.ghost = s.ghost) := by
  intro c s k hr
  have inv := reach_inv hr
  constructor
  · intro hn
    simp [Cache.get, hn]
  · intro w f hsome
    have hmem : k ∈ keysOf s.entries := mem_keysOf_of_lookupE hsome
    have hf3 : f ≤ 3 := by
      have h := lookup_le3 inv.freqB hsome
      simpa using h
    by_cases hlt : f < 3
    · have he : Cache.get s k =
          (some w, { s with entries := setFreq s.entries k (f + 1) }) := by
        simp [Cache.get, hsome, maxFreqLimit, hlt]
      rw [he]
      refine ⟨rfl, ?_, ?_, ?_, rfl, rfl, rfl⟩
      · show freqOf (setFreq s.entries k (f + 1)) k = _
        rw [freqOf_setFreq_self hmem, if_pos hlt]
      · show f ≤ freqOf (setFreq s.entries k (f + 1)) k
        rw [freqOf_setFreq_self hmem]
        omega
      · intro h
        exact absurd hlt h
    · have he : Cache.get s k = (some w, s) := by
        simp [Cache.get, hsome, maxFreqLimit, hlt]
      rw [he]
      have hfq : freqOf s.entries k = f := by
        have h := freqOf_eq_of_lookup hsome
        simpa using h
      refine ⟨rfl, ?_, ?_, ?_, rfl, rfl, rfl⟩
      · rw [if_neg hlt]
        exact hfq
      · rw [hfq]
      · intro h
        rw [hfq]
        omega
/-- C6 witness: lookup semantics at a concrete reachable state holding
key 5 with value 7 and freq 0. -/
theorem c6_lookup_witness :
    Reach 2 c6state ∧ lookupE c6state.entries 5 = some (7, 0) ∧
      (Cache.get c6state 5).1 = some 7 ∧
      freqOf (Cache.get c6state 5).2.entries 5 =
        (if 0 < 3 then 0 + 1 else 0) ∧
      (Cache.get c6state 5).2.ghost = c6state.ghost := by
  have hrun : runOps (mkCache Nat Nat 2) [Op.ins 5 7] =
      Res.ok c6state := by decide
  have hr : Reach 2 c6state := reach_run (Reach.init 2 (by decide)) hrun
  have h := (c6_lookup 2 c6state 5 hr).2 7 0 (by decide)
  exact ⟨hr, by decide, h.1, h.2.1, h.2.2.2.2.2.2⟩

/-- C7: inserting an already-present key returns false and leaves the
entire cache state unchanged. -/
theorem c7_insert_present :
    ∀ (s : Cache K V) (k : K) (w : V), k ∈ keysOf s.entries →
      Cache.insert s k w = Res.ok (false, s) := by
  intro s k w hk
  obtain ⟨pv, hpv⟩ := lookupE_isSome_of_mem hk
  have hcon : containsE s.entries k = true := by
    unfold containsE
    rw [hpv]
    rfl
  simp [Cache.insert, hcon]

/-- C7 witness: re-inserting key 5 into a state that holds it. -/
theorem c7_insert_present_witness :
    5 ∈ keysOf c6state.entries ∧
      Cache.insert c6state 5 99 = Res.ok (false, c6state) :=
  ⟨by decide, c7_insert_present c6state 5 99 (by decide)⟩

/-- C8: when the small-queue push overflows with victim w, a freq-0
victim is dropped from the entry table and pushed into ghost; a hot
victim has its freq reset to 0 and is handed to the main-queue admission,
which never touches ghost. -/
theorem c8_small_eviction :
    ∀ (s : Cache K V) (k w : K) (tail : List K) (pw : V × Nat),
      s.small = w :: tail → ¬ s.small.length < s.smallCap →
      lookupE s.entries w = some pw →
      (pw.2 = 0 → insert_s s k =
        Res.ok { s with small := tail ++ [k],
                        entries := eraseE s.entries w,
                        ghost := ghost_push s.ghostCap s.ghost w }) ∧
      (pw.2 ≠ 0 →
        insert_s s k = insert_m
          (fuelFor { s with small := tail ++ [k],
                            entries := setFreq s.entries w 0 } w)
          { s with small := tail ++ [k],
                   entries := setFreq s.entries w 0 } w ∧
        ∀ s', insert_s s k = Res.ok s' → s'.ghost = s.ghost) := by
  intro s k w tail pw hsm hlt hw
  have hlt2 : ¬ (w :: tail).length < s.smallCap := by
    rw [← hsm]
    exact hlt
  have hpush : push_overwrite s.smallCap s.small k =
      (tail ++ [k], some w) := by
    rw [hsm]
    unfold push_overwrite
    rw [if_neg hlt2]
  constructor
  · intro hz
    simp [insert_s, hpush, hw, hz]
  · intro hz
    have heq : insert_s s k = insert_m
        (fuelFor { s with small := tail ++ [k],
                          entries := setFreq s.entries w 0 } w)
        { s with small := tail ++ [k],
                 entries := setFreq s.entries w 0 } w := by
      simp [insert_s, hpush, hw, hz]
    refine ⟨heq, ?_⟩
    intro s' hok
    rw [heq] at hok
    exact ((fields_spec _).1 _ _ _ hok).2.1

/-- C8 witness: the freq-0 branch at a concrete full small queue. -/
theorem c8_small_eviction_witness :
    c6state.small = 5 :: [] ∧
    ¬ c6state.small.length < c6state.smallCap ∧
    lookupE c6state.entries 5 = some (7, 0) ∧
    insert_s c6state 8 =
      Res.ok { c6state with small := [] ++ [8],
                            entries := eraseE c6state.entries 5,
                            ghost := ghost_push c6state.ghostCap
                              c6state.ghost 5 } := by
  refine ⟨by decide, by decide, by decide, ?_⟩
  exact ((@c8_small_eviction Nat Nat _) c6state 8 5 [] (7, 0) (by decide)
    (by decide) (by decide)).1 (by decide)

/-- C9: for every reachable state and every key/value, `insert`
terminates — the admission recursion and the eviction loop cannot run
forever; in the fuel model the computed fuel is never exhausted. -/
theorem c9_insert_terminates :
    ∀ (c : Nat) (s : Cache K V) (k : K) (w : V), Reach c s →
      Cache.insert s k w ≠ Res.fuelOut :=
  fun _ s k w hr => (insert_spec (reach_inv hr) k w).1

/-- C9 witness: termination of an insert on the initial capacity-2
cache. -/
theorem c9_insert_terminates_witness :
    Reach 2 (mkCache Nat Nat 2) ∧
      Cache.insert (mkCache Nat Nat 2) 0 0 ≠ Res.fuelOut :=
  ⟨Reach.init 2 (by decide),
   c9_insert_terminates 2 (mkCache Nat Nat 2) 0 0
     (Reach.init 2 (by decide))⟩

end S3F
